import Mathlib

/-!
A shallow embedding of `verizip.py`, a tool that creates a zip archive from a
set of input paths and verifies it by comparing per-file content hashes of the
sources against per-entry content hashes of the finished archive.

Modelling conventions:
* Paths appear at two levels, matching how the source manipulates them: as raw
  strings (for the string-splitting helpers such as `get_common_root_directory`
  and `get_safe_file_path`) and as lists of path components (for the
  relative-name computations shared by `get_hash_dict` and `add_files_to_zip`).
* Python dictionaries keyed by hash digest are association lists with distinct
  keys in insertion order; Python dict equality and `sorted` are modelled
  explicitly below.
* Hashing is modelled by an abstract streaming hasher (the `hashlib` object):
  the embedding only relies on the hasher being fed the same block sequence.
* Filesystem state (which files exist, which are regular) is passed explicitly.
-/

namespace Verizip

/-! ### Streaming hashing (`hash_file_at_path`, `hash_file_in_zip`) -/

/-- The fixed read-buffer size used by both hashing functions: 64 KiB. -/
def block_size : Nat := 64 * 1024

/-- An abstract streaming hasher, modelling a `hashlib` digest object with its
initial state, `update` method and `hexdigest` method. -/
structure Hasher (σ : Type) where
  init : σ
  update : σ → List Nat → σ
  hexdigest : σ → String

/-- The read loop of `hash_file_at_path` (verizip.py lines 173-178): repeatedly
read `block_size` bytes from the open file and feed them to the hasher until a
read returns no data. -/
def fileReadLoop {σ : Type} (H : Hasher σ) (st : σ) (data : List Nat) : σ :=
  match data with
  | [] => st
  | b :: bs =>
      fileReadLoop H (H.update st ((b :: bs).take block_size)) ((b :: bs).drop block_size)
termination_by data.length
decreasing_by simp [block_size]; omega

/-- The read loop of `hash_file_in_zip` (verizip.py lines 186-191): identical
streaming over the archive-entry reader obtained from `zip_handler.open`. -/
def zipReadLoop {σ : Type} (H : Hasher σ) (st : σ) (data : List Nat) : σ :=
  match data with
  | [] => st
  | b :: bs =>
      zipReadLoop H (H.update st ((b :: bs).take block_size)) ((b :: bs).drop block_size)
termination_by data.length
decreasing_by simp [block_size]; omega

/-- `hash_file_at_path` (verizip.py lines 169-179) on the byte content of the
file at the given path; the digest algorithm object is the parameter `H`. -/
def hash_file_at_path {σ : Type} (H : Hasher σ) (content : List Nat) : String :=
  H.hexdigest (fileReadLoop H H.init content)

/-- `hash_file_in_zip` (verizip.py lines 182-192) on the byte content of an
archive entry; the digest algorithm object is the parameter `H`. -/
def hash_file_in_zip {σ : Type} (H : Hasher σ) (content : List Nat) : String :=
  H.hexdigest (zipReadLoop H H.init content)

theorem fileReadLoop_eq_zipReadLoop {σ : Type} (H : Hasher σ) :
    ∀ (n : Nat) (st : σ) (data : List Nat), data.length ≤ n →
      fileReadLoop H st data = zipReadLoop H st data := by
  intro n
  induction n with
  | zero =>
      intro st data h
      have hd : data = [] := List.length_eq_zero.mp (Nat.le_zero.mp h)
      subst hd
      simp [fileReadLoop, zipReadLoop]
  | succ n ih =>
      intro st data h
      match data with
      | [] => simp [fileReadLoop, zipReadLoop]
      | b :: bs =>
          rw [fileReadLoop, zipReadLoop]
          apply ih
          have : ((b :: bs).drop block_size).length = bs.length + 1 - block_size := by
            simp [List.length_drop]
          rw [this]
          simp only [List.length_cons] at h
          simp only [block_size]
          omega

/-- C4: for every byte sequence, hashing it as a plain file and hashing it as
an archive-entry stream produce the identical digest string: both functions
stream the content through the same fixed 64 KiB block buffer into the same
digest object, so the digest depends only on the byte content, not on the
source kind. -/
theorem c4_hash_digest_source_independent :
    (∀ (σ : Type) (H : Hasher σ) (content : List Nat),
        hash_file_at_path H content = hash_file_in_zip H content) ∧
      block_size = 64 * 1024 := by
  refine ⟨fun σ H content => ?_, rfl⟩
  unfold hash_file_at_path hash_file_in_zip
  rw [fileReadLoop_eq_zipReadLoop H content.length H.init content (Nat.le_refl _)]

/-! ### Hash dictionaries (Python dicts keyed by digest string) -/

/-- Association-list lookup, modelling Python `d[k]` (and `k in d` via
`Option.isSome`); keys are unique in every dict the program builds. -/
def alookup {α : Type} (d : List (String × α)) (k : String) : Option α :=
  match d with
  | [] => none
  | (k₀, v) :: rest => if k₀ = k then some v else alookup rest k

/-- The insertion pattern used on every hash dictionary in the source
(`if hash_value not in hash_dict: hash_dict[hash_value] = []` followed by
`hash_dict[hash_value].append(x)`): append the value to the key's list,
creating the key at the end of the dict (insertion order) if it is new. -/
def dictAppend (d : List (String × List String)) (k : String) (v : String) :
    List (String × List String) :=
  match d with
  | [] => [(k, [v])]
  | (k₀, l) :: rest =>
      if k₀ = k then (k₀, l ++ [v]) :: rest else (k₀, l) :: dictAppend rest k v

/-- Build a hash dictionary from a list of items keyed by `key` with values
`val`, in iteration order: the common shape of the dict filling in
`get_hash_dict` (lines 222-236) and of the zip-index loop in `main`
(lines 461-469). -/
def foldIndex {α : Type} (key : α → String) (val : α → String) (items : List α) :
    List (String × List String) :=
  items.foldl (fun d a => dictAppend d (key a) (val a)) []

theorem alookup_dictAppend_same (d : List (String × List String)) (k : String) (v : String) :
    alookup (dictAppend d k v) k = some ((alookup d k).getD [] ++ [v]) := by
  induction d with
  | nil => simp [dictAppend, alookup]
  | cons kv rest ih =>
      obtain ⟨k₀, l⟩ := kv
      by_cases hk : k₀ = k
      · subst hk
        simp [dictAppend, alookup]
      · simp [dictAppend, alookup, hk, ih]

theorem alookup_dictAppend_other (d : List (String × List String)) (k k' : String) (v : String)
    (hne : k' ≠ k) : alookup (dictAppend d k v) k' = alookup d k' := by
  induction d with
  | nil => simp [dictAppend, alookup, Ne.symm hne]
  | cons kv rest ih =>
      obtain ⟨k₀, l⟩ := kv
      by_cases hk : k₀ = k
      · subst hk
        simp [dictAppend, alookup, Ne.symm hne]
      · simp only [dictAppend, if_neg hk, alookup]
        by_cases hk' : k₀ = k'
        · simp [hk']
        · simp [hk', ih]

theorem alookup_eq_none_iff {α : Type} (d : List (String × α)) (k : String) :
    alookup d k = none ↔ k ∉ d.map Prod.fst := by
  induction d with
  | nil => simp [alookup]
  | cons kv rest ih =>
      obtain ⟨k₀, v⟩ := kv
      by_cases hk : k₀ = k
      · subst hk
        simp [alookup]
      · simp only [alookup, if_neg hk, List.map_cons, List.mem_cons]
        rw [ih]
        have hkk : ¬ k = k₀ := fun h => hk h.symm
        tauto

theorem alookup_mem {α : Type} (d : List (String × α)) (k : String) (v : α)
    (h : alookup d k = some v) : (k, v) ∈ d := by
  induction d with
  | nil => simp [alookup] at h
  | cons kv rest ih =>
      obtain ⟨k₀, v₀⟩ := kv
      by_cases hk : k₀ = k
      · subst hk
        simp [alookup] at h
        simp [h]
      · simp only [alookup, if_neg hk] at h
        exact List.mem_cons_of_mem _ (ih h)

/-! ### Python `sorted` on lists of strings -/

/-- Boolean lexicographic comparison of strings by code point: the order used
by Python's `sorted` on `str`. -/
def lexLeb : List Char → List Char → Bool
  | [], _ => true
  | _ :: _, [] => false
  | a :: as, b :: bs => if a = b then lexLeb as bs else decide (a < b)

/-- String comparison used when sorting path lists. -/
def strLeb (a b : String) : Bool := lexLeb a.toList b.toList

/-- Ordered insertion (helper for the model of Python `sorted`). -/
def sinsert (x : String) : List String → List String
  | [] => [x]
  | y :: ys => if strLeb x y then x :: y :: ys else y :: sinsert x ys

/-- Python's `sorted` on a list of strings: the ascending rearrangement.  For
strings, equal elements are identical, so the sorted output is independent of
the sorting algorithm. -/
def ssort (l : List String) : List String := l.foldr sinsert []

theorem mem_sinsert (x a : String) (l : List String) :
    a ∈ sinsert x l ↔ a = x ∨ a ∈ l := by
  induction l with
  | nil => simp [sinsert]
  | cons y ys ih =>
      by_cases h : strLeb x y
      · simp [sinsert, h]
      · simp [sinsert, h, ih]
        tauto

theorem mem_ssort (a : String) (l : List String) : a ∈ ssort l ↔ a ∈ l := by
  induction l with
  | nil => simp [ssort]
  | cons y ys ih =>
      simp only [ssort, List.foldr] at *
      rw [mem_sinsert, ih]
      simp

/-! ### The verification decision and the externally visible run effects -/

/-- Python `==` on two hash dictionaries (line 472,
`file_hash_dict == zip_hash_dict`): same key set and, for each key, the same
value; values are Python lists, compared element-by-element in order. -/
def pyDictEq (d1 d2 : List (String × List String)) : Bool :=
  d1.all (fun kv => alookup d2 kv.1 == some kv.2) &&
    d2.all (fun kv => alookup d1 kv.1 == some kv.2)

/-- Stated from the specification's words: order-insensitive equality of two
hash indices — same key set and, for each key, the same multiset of relative
paths (path lists compared after sorting). -/
def multisetIndexEq (d1 d2 : List (String × List String)) : Bool :=
  (d1.all fun kv =>
    match alookup d2 kv.1 with
    | some l => ssort kv.2 == ssort l
    | none => false) &&
    (d2.all fun kv => (alookup d1 kv.1).isSome)

/-- The verification decision of `main` (line 472):
`file_hash_dict == zip_hash_dict and total_file_count == zip_file_count`. -/
def mainVerificationCheck (file_hash_dict zip_hash_dict : List (String × List String))
    (total_file_count zip_file_count : Nat) : Bool :=
  pyDictEq file_hash_dict zip_hash_dict && (total_file_count == zip_file_count)

/-- One line of the mismatch report written by `main` (lines 479-491), kept in
structured form: either a source digest missing from the zip, or a digest
whose sorted path lists differ between source and zip. -/
inductive ReportLine
  | hashMissingInZip (digest : String) (expectedPaths : List String)
  | pathsMismatch (digest : String) (sourcePaths zipPaths : List String)
deriving DecidableEq

/-- The digest a report line is about. -/
def ReportLine.digest : ReportLine → String
  | .hashMissingInZip h _ => h
  | .pathsMismatch h _ _ => h

/-- One iteration of the mismatch-report loop (lines 480-491). -/
def mainErrorReportStep (zip_hash_dict : List (String × List String))
    (acc : List ReportLine) (kv : String × List String) : List ReportLine :=
  match alookup zip_hash_dict kv.1 with
  | none => acc ++ [ReportLine.hashMissingInZip kv.1 kv.2]
  | some zl =>
      if ssort kv.2 ≠ ssort zl then acc ++ [ReportLine.pathsMismatch kv.1 kv.2 zl] else acc

/-- The mismatch-report loop of `main` (lines 480-491): iterate over the
source dict only; report digests missing from the zip dict and digests whose
path lists differ after `sorted`. -/
def mainErrorReport (file_hash_dict zip_hash_dict : List (String × List String)) :
    List ReportLine :=
  file_hash_dict.foldl (mainErrorReportStep zip_hash_dict) []

/-- Terminal states of one run. -/
inductive RunOutcome
  | verified
  | failedMismatch
  | failedException
deriving DecidableEq

/-- The externally visible effects of one `main` run past the point where the
output path is fixed: terminal state, whether the archive file is kept on
disk, whether a timestamped error-report file is written beside the output,
the structured mismatch-report lines, and the process exit status. -/
structure RunEffects where
  outcome : RunOutcome
  archiveKept : Bool
  reportWritten : Bool
  reportLines : List ReportLine
  exitCode : Nat
deriving DecidableEq

/-- The tail of `main` (verizip.py lines 427-499), given the outcome of
`create_zip` and the already-computed zip-side hash index and entry count.
On an exception from `create_zip` (lines 436-453) the error log is written
beside the output, the archive is removed if present, and `main` returns;
no `sys.exit` is ever called and the bare `except:` swallows the exception,
so the interpreter exits with status 0.  Otherwise the verification check
(line 472) decides between success (archive kept, no report) and mismatch
(report written, archive removed); both of those paths also fall off the end
of `main`, again exiting with status 0. -/
def mainPostCreate (createResult : Except Unit (List (String × List String) × Nat))
    (zip_hash_dict : List (String × List String)) (zip_file_count : Nat) : RunEffects :=
  match createResult with
  | .error _ => ⟨.failedException, false, true, [], 0⟩
  | .ok (file_hash_dict, total_file_count) =>
      if mainVerificationCheck file_hash_dict zip_hash_dict total_file_count zip_file_count then
        ⟨.verified, true, false, [], 0⟩
      else
        ⟨.failedMismatch, false, true, mainErrorReport file_hash_dict zip_hash_dict, 0⟩

theorem pyDictEq_imp_multisetIndexEq (d1 d2 : List (String × List String))
    (h : pyDictEq d1 d2 = true) : multisetIndexEq d1 d2 = true := by
  simp only [pyDictEq, Bool.and_eq_true, List.all_eq_true] at h
  obtain ⟨h1, h2⟩ := h
  simp only [multisetIndexEq, Bool.and_eq_true, List.all_eq_true]
  constructor
  · intro kv hkv
    have hl := h1 kv hkv
    rw [beq_iff_eq] at hl
    rw [hl]
    simp
  · intro kv hkv
    have hl := h2 kv hkv
    rw [beq_iff_eq] at hl
    rw [hl]
    simp

theorem mem_mainErrorReport_foldl (zhd : List (String × List String)) :
    ∀ (l : List (String × List String)) (acc : List ReportLine) (line : ReportLine),
      line ∈ l.foldl (mainErrorReportStep zhd) acc →
      line ∈ acc ∨ line.digest ∈ l.map Prod.fst := by
  intro l
  induction l with
  | nil => intro acc line h; exact Or.inl h
  | cons kv rest ih =>
      intro acc line h
      simp only [List.foldl_cons] at h
      rcases ih _ line h with hstep | hrest
      · rcases hzl : alookup zhd kv.1 with _ | zl
        · simp only [mainErrorReportStep, hzl] at hstep
          rcases List.mem_append.mp hstep with ha | hb
          · exact Or.inl ha
          · simp only [List.mem_singleton] at hb
            subst hb
            simp [ReportLine.digest]
        · simp only [mainErrorReportStep, hzl] at hstep
          by_cases hmm : ssort kv.2 ≠ ssort zl
          · rw [if_pos hmm] at hstep
            rcases List.mem_append.mp hstep with ha | hb
            · exact Or.inl ha
            · simp only [List.mem_singleton] at hb
              subst hb
              simp [ReportLine.digest]
          · rw [if_neg hmm] at hstep
            exact Or.inl hstep
      · refine Or.inr ?_
        simp only [List.map_cons, List.mem_cons]
        exact Or.inr hrest

theorem mem_mainErrorReport_digest (fhd zhd : List (String × List String)) (line : ReportLine)
    (h : line ∈ mainErrorReport fhd zhd) : line.digest ∈ fhd.map Prod.fst := by
  rcases mem_mainErrorReport_foldl zhd fhd [] line h with h0 | hk
  · simp at h0
  · exact hk

/-- C1 counterexample: two hash indices whose single key maps to the same
multiset of paths in a different order, with equal counts (2 = 2); the claim
says any such run reports success, but the verification decision on line 472
uses Python dict equality, whose per-key list comparison is order-sensitive,
so the run does not terminate in the Verified state. -/
theorem c1_counterexample :
    multisetIndexEq [("h", ["a", "b"])] [("h", ["b", "a"])] = true ∧
      (2 : Nat) = 2 ∧
      (mainPostCreate (Except.ok ([("h", ["a", "b"])], 2)) [("h", ["b", "a"])] 2).outcome ≠
        RunOutcome.verified := by
  decide

/-- C1 (amended): the run terminates in the Verified state (success reported,
archive kept) if and only if the source hash index and the archive hash index
are equal as Python dicts — same key set and, for each key, the same
relative-path list compared order-sensitively — and the total source file
count equals the total archive entry count.  Verification success still
implies the order-insensitive per-key multiset equality together with equal
counts, but order-insensitive equality alone does not suffice. -/
theorem c1_verified_iff_dict_equality :
    ∀ (fhd zhd : List (String × List String)) (tfc zfc : Nat),
      ((mainPostCreate (Except.ok (fhd, tfc)) zhd zfc).outcome = RunOutcome.verified ↔
        (pyDictEq fhd zhd = true ∧ tfc = zfc)) ∧
      ((mainPostCreate (Except.ok (fhd, tfc)) zhd zfc).outcome = RunOutcome.verified →
        multisetIndexEq fhd zhd = true ∧ tfc = zfc) ∧
      ((mainPostCreate (Except.ok (fhd, tfc)) zhd zfc).outcome = RunOutcome.verified ↔
        (mainPostCreate (Except.ok (fhd, tfc)) zhd zfc).archiveKept = true) := by
  intro fhd zhd tfc zfc
  by_cases hv : mainVerificationCheck fhd zhd tfc zfc = true
  · have hparts := hv
    simp only [mainVerificationCheck, Bool.and_eq_true, beq_iff_eq] at hparts
    refine ⟨?_, ?_, ?_⟩
    · simp only [mainPostCreate, if_pos hv]
      simpa using hparts
    · intro _
      exact ⟨pyDictEq_imp_multisetIndexEq fhd zhd hparts.1, hparts.2⟩
    · simp [mainPostCreate, if_pos hv]
  · have hparts : ¬ (pyDictEq fhd zhd = true ∧ tfc = zfc) := by
      intro hc
      exact hv (by simp [mainVerificationCheck, hc.1, hc.2])
    rw [Bool.not_eq_true] at hv
    refine ⟨?_, ?_, ?_⟩
    · simp only [mainPostCreate, hv, Bool.false_eq_true, if_false]
      simpa using hparts
    · simp only [mainPostCreate, hv, Bool.false_eq_true, if_false]
      intro hcontra
      simp at hcontra
    · simp only [mainPostCreate, hv, Bool.false_eq_true, if_false]
      simp

/-- C3 counterexample: a run in which `create_zip` raises ends in the
exception-handling branch of `main` (lines 436-453), which swallows the
exception and returns without calling `sys.exit`, so the interpreter exits
with status 0 — contradicting the claim that every fatal path exits
non-zero. -/
theorem c3_counterexample :
    (mainPostCreate (Except.error ()) [] 0).outcome = RunOutcome.failedException ∧
      ¬ (mainPostCreate (Except.error ()) [] 0).exitCode ≠ 0 := by
  decide

/-- C3 (amended): on every fatal path of the run — an exception raised during
enumeration, hashing, or archive writing, or a post-write verification
mismatch — the archive file is deleted if present and a timestamped
error-report file is written beside the output, so the tool never retains a
partial or hash-mismatched archive; however the exception is swallowed and
`main` simply returns, so the process exits with status 0, not non-zero. -/
theorem c3_fatal_path_effects :
    ∀ (e : Unit) (zhd fhd : List (String × List String)) (zfc tfc : Nat),
      ((mainPostCreate (Except.error e) zhd zfc).archiveKept = false ∧
        (mainPostCreate (Except.error e) zhd zfc).reportWritten = true ∧
        (mainPostCreate (Except.error e) zhd zfc).exitCode = 0) ∧
      (mainVerificationCheck fhd zhd tfc zfc = false →
        (mainPostCreate (Except.ok (fhd, tfc)) zhd zfc).archiveKept = false ∧
        (mainPostCreate (Except.ok (fhd, tfc)) zhd zfc).reportWritten = true ∧
        (mainPostCreate (Except.ok (fhd, tfc)) zhd zfc).exitCode = 0) := by
  intro e zhd fhd zfc tfc
  constructor
  · simp [mainPostCreate]
  · intro hfail
    simp [mainPostCreate, hfail]

/-- C3 witness: the amended theorem applied to a concrete mismatching run. -/
theorem c3_witness :
    mainVerificationCheck [("h", ["a"])] [] 1 0 = false ∧
      (mainPostCreate (Except.ok ([("h", ["a"])], 1)) [] 0).archiveKept = false ∧
      (mainPostCreate (Except.ok ([("h", ["a"])], 1)) [] 0).reportWritten = true ∧
      (mainPostCreate (Except.ok ([("h", ["a"])], 1)) [] 0).exitCode = 0 :=
  ⟨by decide, (c3_fatal_path_effects () [] [("h", ["a"])] 0 1).2 (by decide)⟩

/-- C1 witness: the amended theorem applied to a concrete successful run. -/
theorem c1_witness :
    (mainPostCreate (Except.ok ([("h", ["a"])], 1)) [("h", ["a"])] 1).outcome =
        RunOutcome.verified ∧
      multisetIndexEq [("h", ["a"])] [("h", ["a"])] = true ∧ (1 : Nat) = 1 :=
  ⟨by decide,
    (c1_verified_iff_dict_equality [("h", ["a"])] [("h", ["a"])] 1 1).2.1 (by decide)⟩

/-- C10: if the archive hash index contains a digest absent from the source
hash index, the run fails verification and deletes the archive and writes the
report file, but the mismatch report contains no line mentioning that digest:
the diff loop on lines 480-491 iterates only over digests of the source
index. -/
theorem c10_archive_only_digest_unreported :
    ∀ (fhd zhd : List (String × List String)) (tfc zfc : Nat) (h : String) (v : List String),
      alookup zhd h = some v → alookup fhd h = none →
      (mainPostCreate (Except.ok (fhd, tfc)) zhd zfc).outcome = RunOutcome.failedMismatch ∧
        (mainPostCreate (Except.ok (fhd, tfc)) zhd zfc).archiveKept = false ∧
        (mainPostCreate (Except.ok (fhd, tfc)) zhd zfc).reportWritten = true ∧
        ∀ line ∈ (mainPostCreate (Except.ok (fhd, tfc)) zhd zfc).reportLines,
          line.digest ≠ h := by
  intro fhd zhd tfc zfc h v hz hf
  have hmem : (h, v) ∈ zhd := alookup_mem zhd h v hz
  have hpy : pyDictEq fhd zhd = false := by
    rw [Bool.eq_false_iff]
    intro htrue
    simp only [pyDictEq, Bool.and_eq_true, List.all_eq_true] at htrue
    have := htrue.2 (h, v) hmem
    rw [beq_iff_eq] at this
    rw [hf] at this
    exact Option.noConfusion this
  have hcheck : mainVerificationCheck fhd zhd tfc zfc = false := by
    simp [mainVerificationCheck, hpy]
  refine ⟨?_, ?_, ?_, ?_⟩
  · simp [mainPostCreate, hcheck]
  · simp [mainPostCreate, hcheck]
  · simp [mainPostCreate, hcheck]
  · simp only [mainPostCreate, hcheck, Bool.false_eq_true, if_false]
    intro line hline heq
    have hkey := mem_mainErrorReport_digest fhd zhd line hline
    rw [heq] at hkey
    exact (alookup_eq_none_iff fhd h).mp hf hkey

/-- C10 witness: the theorem applied to a concrete run whose zip index holds
an extra digest. -/
theorem c10_witness :
    alookup [("g", ["x"]), ("h", ["y"])] "h" = some ["y"] ∧
      alookup [("g", ["x"])] "h" = none ∧
      ((mainPostCreate (Except.ok ([("g", ["x"])], 1)) [("g", ["x"]), ("h", ["y"])] 2).outcome =
          RunOutcome.failedMismatch ∧
        (mainPostCreate (Except.ok ([("g", ["x"])], 1)) [("g", ["x"]), ("h", ["y"])] 2).archiveKept =
          false ∧
        (mainPostCreate (Except.ok ([("g", ["x"])], 1)) [("g", ["x"]), ("h", ["y"])] 2).reportWritten =
          true ∧
        ∀ line ∈
          (mainPostCreate (Except.ok ([("g", ["x"])], 1)) [("g", ["x"]), ("h", ["y"])] 2).reportLines,
          line.digest ≠ "h") :=
  ⟨by decide, by decide,
    c10_archive_only_digest_unreported [("g", ["x"])] [("g", ["x"]), ("h", ["y"])] 1 2 "h" ["y"]
      (by decide) (by decide)⟩

/-! ### Relative names: the component-level path model

A well-formed absolute path is modelled as its list of path components
(`/a/b/c` is `["a", "b", "c"]`; on Windows the first component is the drive,
`"C:"`).  `joinPath` renders a component list with forward slashes, which is
the normalised form both relative-name computations end in. -/

/-- Render a component list with forward slashes. -/
def joinPath (comps : List String) : String := String.intercalate "/" comps

/-- Host OS kind, as tested by `platform.system()` in the source. -/
inductive OSKind
  | windows
  | posix
deriving DecidableEq

/-- Python `s.replace(":", "")` — remove every colon. -/
def removeColons (s : String) : String := String.mk (s.toList.filter (fun c => c ≠ ':'))

/-- Number of leading components on which two component lists agree
(`os.path.commonprefix` on the two split lists, as used inside
`os.path.relpath`). -/
def commonPrefixLen : List String → List String → Nat
  | a :: as, b :: bs => if a = b then commonPrefixLen as bs + 1 else 0
  | _, _ => 0

/-- `os.path.relpath(path, start)` on component lists: climb out of the
non-shared components of `start` with `..` and descend into the rest of
`path`; `.` when the two coincide. -/
def relpathComps (p start : List String) : List String :=
  let i := commonPrefixLen p start
  let rel := List.replicate (start.length - i) ".." ++ p.drop i
  if rel = [] then ["."] else rel

/-- `os.path.basename` of a directory given as components: its last
component; `none` models the empty basename of a filesystem root. -/
def basenameComps (r : List String) : Option String := r.getLast?

/-- The relative name recorded by `get_hash_dict` (verizip.py lines 224-236)
for the file `p`: relative to `root_dir` when present, otherwise the absolute
path with its single leading separator stripped (POSIX, line 229) or the
drive colon removed (Windows, line 231); prefixed with `basename(root_dir)`
when `dir_flag` is set (line 233); backslashes normalised to forward slashes
on Windows (line 235).  In the component model, stripping the one leading
separator and the final slash normalisation are both captured by
`joinPath`. -/
def get_hash_dict_rel_name (os : OSKind) (p : List String) (root : Option (List String))
    (dir_flag : Bool) : String :=
  let rel : List String :=
    match root with
    | some r => relpathComps p r
    | none =>
        match os with
        | .posix => p
        | .windows => p.map removeColons
  let rel : List String :=
    match root, dir_flag with
    | some r, true =>
        match basenameComps r with
        | some b => b :: rel
        | none => rel
    | _, _ => rel
  joinPath rel

/-- The arcname handed to `zip_handler.write` by `add_files_to_zip`
(verizip.py lines 92-108), before the zip library's own normalisation: a flag
recording whether the arcname string still has a leading separator (the POSIX
no-root case passes the absolute path unchanged), together with its
components. -/
def add_files_to_zip_arcname (os : OSKind) (p : List String) (root : Option (List String))
    (dir_flag : Bool) : Bool × List String :=
  match root with
  | some r =>
      let rel := relpathComps p r
      if dir_flag then
        match basenameComps r with
        | some b => (false, b :: rel)
        | none => (false, rel)
      else (false, rel)
  | none =>
      match os with
      | .posix => (true, p)
      | .windows => (false, p.map removeColons)

/-- One step of `posixpath.normpath`'s component scan, as performed by
`zipfile.ZipInfo.from_file` on the arcname: drop empty and `.` components and
resolve `..` against the accumulated components, keeping a leading `..` only
for relative arcnames. -/
def normStep (absolute : Bool) (acc : List String) (c : String) : List String :=
  if c = "" ∨ c = "." then acc
  else if c ≠ ".." then acc ++ [c]
  else if absolute ∧ acc = [] then acc
  else if acc = [] ∨ acc.getLast? = some ".." then acc ++ [".."]
  else acc.dropLast

/-- The name under which the zip library stores an entry written with the
given arcname: `ZipInfo.from_file` applies `os.path.splitdrive` and
`os.path.normpath`, strips leading separators, and normalises the OS
separator to `/`.  In the component model this is the normpath scan followed
by dropping the absolute marker and joining with forward slashes. -/
def zipfile_stored_name (arc : Bool × List String) : String :=
  joinPath (arc.2.foldl (normStep arc.1) [])

/-- The archive-relative entry name under which `add_files_to_zip` stores the
file `p`. -/
def archive_stored_name (os : OSKind) (p : List String) (root : Option (List String))
    (dir_flag : Bool) : String :=
  zipfile_stored_name (add_files_to_zip_arcname os p root dir_flag)

/-- A well-formed path component: nonempty and not one of the special
components `.` and `..`. -/
def goodComp (c : String) : Prop := c ≠ "" ∧ c ≠ "." ∧ c ≠ ".."

instance (c : String) : Decidable (goodComp c) := by
  unfold goodComp
  infer_instance

theorem commonPrefixLen_of_append (r rest : List String) :
    commonPrefixLen (r ++ rest) r = r.length := by
  induction r with
  | nil =>
      cases rest with
      | nil => simp [commonPrefixLen]
      | cons a as => simp [commonPrefixLen]
  | cons x rs ih => simp [commonPrefixLen, ih]

theorem foldl_normStep_good (ab : Bool) :
    ∀ (l : List String), (∀ c ∈ l, goodComp c) → ∀ acc, l.foldl (normStep ab) acc = acc ++ l := by
  intro l
  induction l with
  | nil => intro _ acc; simp
  | cons c cs ih =>
      intro hgood acc
      have hc : goodComp c := hgood c (List.mem_cons_self c cs)
      obtain ⟨h1, h2, h3⟩ := hc
      have hstep : normStep ab acc c = acc ++ [c] := by
        simp [normStep, h1, h2, h3]
      simp only [List.foldl_cons, hstep]
      rw [ih (fun x hx => hgood x (List.mem_cons_of_mem _ hx)) (acc ++ [c])]
      simp

/-- C2: for every file path, common root directory, and flatten flag (over
well-formed component paths, with the root a proper ancestor of the file when
present, as `create_zip` guarantees), the archive-relative entry name under
which the archive writer stores the file equals the relative name recorded
for that file in the source hash index: same root-relative computation, same
drive-colon/leading-separator stripping when there is no root, same flatten
prefixing, and the same forward-slash normalisation. -/
theorem c2_archive_name_matches_hash_name :
    ∀ (os : OSKind) (p : List String) (root : Option (List String)) (dir_flag : Bool),
      (∀ c ∈ p, goodComp c) →
      (os = OSKind.windows → ∀ c ∈ p, goodComp (removeColons c)) →
      (∀ r, root = some r → (∀ c ∈ r, goodComp c) ∧ r ≠ p ∧ ∃ rest, p = r ++ rest) →
      archive_stored_name os p root dir_flag = get_hash_dict_rel_name os p root dir_flag := by
  intro os p root dir_flag hp hwin hroot
  match root with
  | none =>
      match os with
      | OSKind.posix =>
          simp only [archive_stored_name, add_files_to_zip_arcname, zipfile_stored_name,
            get_hash_dict_rel_name]
          rw [foldl_normStep_good true p hp []]
          simp
      | OSKind.windows =>
          simp only [archive_stored_name, add_files_to_zip_arcname, zipfile_stored_name,
            get_hash_dict_rel_name]
          have hmap : ∀ c ∈ p.map removeColons, goodComp c := by
            intro c hc
            rcases List.mem_map.mp hc with ⟨c₀, hc₀, hrc⟩
            subst hrc
            exact hwin rfl c₀ hc₀
          rw [foldl_normStep_good false (p.map removeColons) hmap []]
          simp
  | some r =>
      obtain ⟨hr, hne, rest, hsplit⟩ := hroot r rfl
      have hrel : relpathComps p r = rest := by
        subst hsplit
        simp only [relpathComps, commonPrefixLen_of_append]
        have hdrop : (r ++ rest).drop r.length = rest := List.drop_left r rest
        have hrest : rest ≠ [] := by
          intro hempty
          subst hempty
          exact hne (by simp)
        simp [hdrop, hrest]
      have hrest_good : ∀ c ∈ rest, goodComp c := by
        intro c hc
        exact hp c (by rw [hsplit]; exact List.mem_append_right r hc)
      simp only [archive_stored_name, add_files_to_zip_arcname, zipfile_stored_name,
        get_hash_dict_rel_name, hrel]
      match dir_flag with
      | false =>
          simp only [Bool.false_eq_true, if_false]
          rw [foldl_normStep_good false rest hrest_good []]
          simp
      | true =>
          simp only [if_true]
          match hb : basenameComps r with
          | none =>
              simp only []
              rw [foldl_normStep_good false rest hrest_good []]
              simp
          | some b =>
              have hbgood : goodComp b := by
                have hbr : b ∈ r := by
                  unfold basenameComps at hb
                  obtain ⟨hne', heq⟩ := List.mem_getLast?_eq_getLast (Option.mem_def.mpr hb)
                  rw [heq]
                  exact List.getLast_mem hne'
                exact hr b hbr
              simp only []
              rw [foldl_normStep_good false (b :: rest)
                (by intro c hc
                    rcases List.mem_cons.mp hc with hcb | hcr
                    · subst hcb; exact hbgood
                    · exact hrest_good c hcr) []]
              simp

/-- C2 witness: concrete evaluation on `/home/u/f.txt` under root `/home`
with the flatten flag set. -/
theorem c2_witness :
    archive_stored_name OSKind.posix ["home", "u", "f.txt"] (some ["home"]) true =
        get_hash_dict_rel_name OSKind.posix ["home", "u", "f.txt"] (some ["home"]) true ∧
      get_hash_dict_rel_name OSKind.posix ["home", "u", "f.txt"] (some ["home"]) true =
        "home/u/f.txt" :=
  ⟨c2_archive_name_matches_hash_name OSKind.posix ["home", "u", "f.txt"] (some ["home"]) true
      (by decide) (fun h => nomatch h)
      (fun r hr => by
        injection hr with h
        subst h
        exact ⟨by decide, by decide, ["u", "f.txt"], rfl⟩),
    by decide⟩

/-! ### `get_hash_dict` (verizip.py lines 195-237) and the two hash indices -/

/-- A source file as seen at hash time: its absolute path (components), its
byte content, and whether `os.path.isfile` reports it as a regular file. -/
structure FSFile where
  path : List String
  content : List Nat
  isRegular : Bool

/-- The message of the `IOError` raised for a missing or irregular file
(verizip.py lines 206-209). -/
def irregularMsg (path : String) : String :=
  "'" ++ path ++ "' has either been deleted or is not a regular file (may be a pipe/socket)" ++
    " - zip creation aborted"

/-- The loop of `get_hash_dict` (lines 198-236) with its accumulated dict:
check `os.path.isfile` first and abort fatally if it fails, otherwise hash
the content (digest function `hf` models `hash_file_at_path`) and append the
file's relative name to the digest's path list. -/
def get_hash_dict_go (hf : List Nat → String) (os : OSKind) (root : Option (List String))
    (dir_flag : Bool) :
    List (String × List String) → List FSFile → Except String (List (String × List String))
  | acc, [] => Except.ok acc
  | acc, f :: rest =>
      if f.isRegular then
        get_hash_dict_go hf os root dir_flag
          (dictAppend acc (hf f.content) (get_hash_dict_rel_name os f.path root dir_flag)) rest
      else Except.error (irregularMsg (joinPath f.path))

/-- `get_hash_dict` (verizip.py lines 195-237). -/
def get_hash_dict (hf : List Nat → String) (os : OSKind) (root : Option (List String))
    (dir_flag : Bool) (file_list : List FSFile) : Except String (List (String × List String)) :=
  get_hash_dict_go hf os root dir_flag [] file_list

/-- The (arcname, content) pairs written into the zip by `create_zip` via
`add_files_to_zip`, in file-list order; `namelist()` later returns exactly
these names in this order. -/
def create_zip_entries (os : OSKind) (root : Option (List String)) (dir_flag : Bool)
    (files : List FSFile) : List (String × List Nat) :=
  files.map (fun f => (archive_stored_name os f.path root dir_flag, f.content))

/-- The zip-side hash index built by `main` (lines 457-469): iterate over
`namelist()`, hash each entry's stream, and append the entry name to the
digest's path list. -/
def build_zip_hash_dict (hf : List Nat → String) (entries : List (String × List Nat)) :
    List (String × List String) :=
  entries.foldl (fun d e => dictAppend d (hf e.2) e.1) []

theorem foldl_dictAppend_lookup_some {α : Type} (key val : α → String) :
    ∀ (items : List α) (d : List (String × List String)) (h : String) (l : List String),
      alookup d h = some l →
      alookup (items.foldl (fun d a => dictAppend d (key a) (val a)) d) h =
        some (l ++ (items.filter (fun a => key a == h)).map val) := by
  intro items
  induction items with
  | nil => intro d h l hl; simpa using hl
  | cons a items ih =>
      intro d h l hl
      simp only [List.foldl_cons]
      by_cases hk : key a = h
      · subst hk
        have hstep := alookup_dictAppend_same d (key a) (val a)
        rw [hl] at hstep
        have := ih (dictAppend d (key a) (val a)) (key a) (l ++ [val a]) (by simpa using hstep)
        rw [this]
        simp [List.filter_cons, List.append_assoc]
      · have hstep := alookup_dictAppend_other d (key a) h (val a) (fun he => hk he.symm)
        have := ih (dictAppend d (key a) (val a)) h l (by rw [hstep]; exact hl)
        rw [this]
        have hfilter : (List.filter (fun a => key a == h) (a :: items)) =
            List.filter (fun a => key a == h) items := by
          simp [List.filter_cons, hk]
        rw [hfilter]

theorem foldl_dictAppend_lookup_none {α : Type} (key val : α → String) :
    ∀ (items : List α) (d : List (String × List String)) (h : String),
      alookup d h = none →
      alookup (items.foldl (fun d a => dictAppend d (key a) (val a)) d) h =
        if items.any (fun a => key a == h)
        then some ((items.filter (fun a => key a == h)).map val)
        else none := by
  intro items
  induction items with
  | nil => intro d h hl; simpa using hl
  | cons a items ih =>
      intro d h hl
      simp only [List.foldl_cons]
      by_cases hk : key a = h
      · subst hk
        have hstep := alookup_dictAppend_same d (key a) (val a)
        rw [hl] at hstep
        have := foldl_dictAppend_lookup_some key val items
          (dictAppend d (key a) (val a)) (key a) [val a] (by simpa using hstep)
        rw [this]
        simp [List.any_cons, List.filter_cons]
      · have hstep := alookup_dictAppend_other d (key a) h (val a) (fun he => hk he.symm)
        have := ih (dictAppend d (key a) (val a)) h (by rw [hstep]; exact hl)
        rw [this]
        simp [List.any_cons, List.filter_cons, hk]

theorem keys_dictAppend (d : List (String × List String)) (k : String) (v : String) :
    (dictAppend d k v).map Prod.fst =
      if k ∈ d.map Prod.fst then d.map Prod.fst else d.map Prod.fst ++ [k] := by
  induction d with
  | nil => simp [dictAppend]
  | cons kv rest ih =>
      obtain ⟨k₀, l⟩ := kv
      by_cases hk : k₀ = k
      · subst hk
        simp [dictAppend]
      · simp only [dictAppend, if_neg hk, List.map_cons, ih]
        have hkk : ¬ k = k₀ := fun h => hk h.symm
        by_cases hmem : k ∈ rest.map Prod.fst
        · simp [hmem, hkk]
        · simp [hmem, hkk]

theorem nodup_keys_dictAppend (d : List (String × List String)) (k : String) (v : String)
    (hd : (d.map Prod.fst).Nodup) : ((dictAppend d k v).map Prod.fst).Nodup := by
  rw [keys_dictAppend]
  by_cases hmem : k ∈ d.map Prod.fst
  · simpa [hmem] using hd
  · rw [if_neg hmem]
    rw [List.nodup_append]
    exact ⟨hd, List.nodup_singleton k, by
      intro a ha hb
      simp only [List.mem_singleton] at hb
      subst hb
      exact hmem ha⟩

theorem nodup_keys_foldl_dictAppend {α : Type} (key val : α → String) :
    ∀ (items : List α) (d : List (String × List String)),
      (d.map Prod.fst).Nodup →
      ((items.foldl (fun d a => dictAppend d (key a) (val a)) d).map Prod.fst).Nodup := by
  intro items
  induction items with
  | nil => intro d hd; simpa using hd
  | cons a items ih =>
      intro d hd
      simp only [List.foldl_cons]
      exact ih _ (nodup_keys_dictAppend d (key a) (val a) hd)

theorem get_hash_dict_go_all_regular (hf : List Nat → String) (os : OSKind)
    (root : Option (List String)) (dir_flag : Bool) :
    ∀ (files : List FSFile) (acc : List (String × List String)),
      (∀ f ∈ files, f.isRegular = true) →
      get_hash_dict_go hf os root dir_flag acc files =
        Except.ok (files.foldl
          (fun d f => dictAppend d (hf f.content) (get_hash_dict_rel_name os f.path root dir_flag))
          acc) := by
  intro files
  induction files with
  | nil => intro acc _; simp [get_hash_dict_go]
  | cons f rest ih =>
      intro acc hreg
      have hf' : f.isRegular = true := hreg f (List.mem_cons_self f rest)
      simp only [get_hash_dict_go, hf', if_true, List.foldl_cons]
      exact ih _ (fun g hg => hreg g (List.mem_cons_of_mem _ hg))

theorem get_hash_dict_go_error (hf : List Nat → String) (os : OSKind)
    (root : Option (List String)) (dir_flag : Bool) :
    ∀ (files : List FSFile) (acc : List (String × List String)),
      (∃ f ∈ files, f.isRegular = false) →
      ∃ bad ∈ files, bad.isRegular = false ∧
        get_hash_dict_go hf os root dir_flag acc files =
          Except.error (irregularMsg (joinPath bad.path)) := by
  intro files
  induction files with
  | nil => intro acc h; simp at h
  | cons f rest ih =>
      intro acc h
      by_cases hf' : f.isRegular = true
      · have hrest : ∃ g ∈ rest, g.isRegular = false := by
          rcases h with ⟨g, hg, hgreg⟩
          rcases List.mem_cons.mp hg with hgf | hgr
          · subst hgf; rw [hf'] at hgreg; exact absurd hgreg (by simp)
          · exact ⟨g, hgr, hgreg⟩
        rcases ih (dictAppend acc (hf f.content)
            (get_hash_dict_rel_name os f.path root dir_flag)) hrest with ⟨bad, hbm, hbreg, herr⟩
        refine ⟨bad, List.mem_cons_of_mem _ hbm, hbreg, ?_⟩
        simpa [get_hash_dict_go, hf'] using herr
      · rw [Bool.not_eq_true] at hf'
        refine ⟨f, List.mem_cons_self f rest, hf', ?_⟩
        simp [get_hash_dict_go, hf']

theorem get_hash_dict_go_ok_all_regular (hf : List Nat → String) (os : OSKind)
    (root : Option (List String)) (dir_flag : Bool) :
    ∀ (files : List FSFile) (acc : List (String × List String))
      (d : List (String × List String)),
      get_hash_dict_go hf os root dir_flag acc files = Except.ok d →
      ∀ f ∈ files, f.isRegular = true := by
  intro files
  induction files with
  | nil => intro acc d _ f hf'; simp at hf'
  | cons f rest ih =>
      intro acc d hok g hg
      by_cases hf' : f.isRegular = true
      · rcases List.mem_cons.mp hg with hgf | hgr
        · subst hgf; exact hf'
        · simp only [get_hash_dict_go, hf', if_true] at hok
          exact ih _ d hok g hgr
      · rw [Bool.not_eq_true] at hf'
        simp [get_hash_dict_go, hf'] at hok

/-- C7: when building the source hash index, if any listed file is missing or
is not a regular file at hash time, the whole operation fails with the fatal
`IOError` naming such a file, and no index is produced at all (so no entry is
recorded for it, and in particular none before the error); conversely, if an
index is produced, every listed file was a regular file — no file is ever
skipped. -/
theorem c7_irregular_file_aborts :
    ∀ (hf : List Nat → String) (os : OSKind) (root : Option (List String)) (dir_flag : Bool)
      (files : List FSFile),
      ((∃ f ∈ files, f.isRegular = false) →
        ∃ bad ∈ files, bad.isRegular = false ∧
          get_hash_dict hf os root dir_flag files =
            Except.error (irregularMsg (joinPath bad.path))) ∧
      (∀ d, get_hash_dict hf os root dir_flag files = Except.ok d →
        ∀ f ∈ files, f.isRegular = true) := by
  intro hf os root dir_flag files
  constructor
  · intro h
    exact get_hash_dict_go_error hf os root dir_flag files [] h
  · intro d hok
    exact get_hash_dict_go_ok_all_regular hf os root dir_flag files [] d hok

/-- C7 witness: a file list whose second entry is not a regular file. -/
theorem c7_witness :
    (∃ f ∈ [FSFile.mk ["a"] [0] true, FSFile.mk ["b"] [] false], f.isRegular = false) ∧
      ∃ bad ∈ [FSFile.mk ["a"] [0] true, FSFile.mk ["b"] [] false], bad.isRegular = false ∧
        get_hash_dict (fun _ => "h") OSKind.posix none false
            [FSFile.mk ["a"] [0] true, FSFile.mk ["b"] [] false] =
          Except.error (irregularMsg (joinPath bad.path)) :=
  ⟨⟨FSFile.mk ["b"] [] false, by simp, rfl⟩,
    (c7_irregular_file_aborts (fun _ => "h") OSKind.posix none false
        [FSFile.mk ["a"] [0] true, FSFile.mk ["b"] [] false]).1
      ⟨FSFile.mk ["b"] [] false, by simp, rfl⟩⟩

theorem source_index_lookup (hf : List Nat → String) (os : OSKind)
    (root : Option (List String)) (dir_flag : Bool) (files : List FSFile) (h : String) :
    alookup (files.foldl
        (fun d f => dictAppend d (hf f.content) (get_hash_dict_rel_name os f.path root dir_flag))
        []) h =
      if files.any (fun f => hf f.content == h)
      then some ((files.filter (fun f => hf f.content == h)).map
        (fun f => get_hash_dict_rel_name os f.path root dir_flag))
      else none :=
  foldl_dictAppend_lookup_none _ _ files [] h rfl

theorem zip_index_lookup (hf : List Nat → String) (entries : List (String × List Nat))
    (h : String) :
    alookup (build_zip_hash_dict hf entries) h =
      if entries.any (fun e => hf e.2 == h)
      then some ((entries.filter (fun e => hf e.2 == h)).map Prod.fst)
      else none :=
  foldl_dictAppend_lookup_none _ _ entries [] h rfl

/-- C5: for every pair of distinct source files whose contents are
byte-identical (all files regular, so the index is actually built), both the
source hash index and the archive hash index map the single shared digest key
— key sets are duplicate-free — to a list containing both files' relative
names. -/
theorem c5_duplicate_content_shares_key :
    ∀ (hf : List Nat → String) (os : OSKind) (root : Option (List String)) (dir_flag : Bool)
      (files : List FSFile) (i j : Fin files.length),
      (∀ f ∈ files, f.isRegular = true) → i ≠ j →
      (files.get i).content = (files.get j).content →
      ∃ d, get_hash_dict hf os root dir_flag files = Except.ok d ∧
        (d.map Prod.fst).Nodup ∧
        (∃ l, alookup d (hf (files.get i).content) = some l ∧
          get_hash_dict_rel_name os (files.get i).path root dir_flag ∈ l ∧
          get_hash_dict_rel_name os (files.get j).path root dir_flag ∈ l) ∧
        (∃ lz, alookup (build_zip_hash_dict hf (create_zip_entries os root dir_flag files))
            (hf (files.get i).content) = some lz ∧
          archive_stored_name os (files.get i).path root dir_flag ∈ lz ∧
          archive_stored_name os (files.get j).path root dir_flag ∈ lz) := by
  intro hf os root dir_flag files i j hreg hij hcontent
  have hcontent' := hcontent
  simp only [List.get_eq_getElem] at hcontent'
  have hok := get_hash_dict_go_all_regular hf os root dir_flag files [] hreg
  have hmi : files.get i ∈ files := List.get_mem files i.1 i.2
  have hmj : files.get j ∈ files := List.get_mem files j.1 j.2
  refine ⟨_, hok, ?_, ?_, ?_⟩
  · exact nodup_keys_foldl_dictAppend (fun f => hf f.content)
      (fun f => get_hash_dict_rel_name os f.path root dir_flag) files [] (by simp)
  · have hany : files.any (fun f => hf f.content == hf (files.get i).content) = true :=
      List.any_eq_true.mpr ⟨files.get i, hmi, by simp⟩
    rw [source_index_lookup, if_pos hany]
    refine ⟨_, rfl, ?_, ?_⟩
    · exact List.mem_map.mpr ⟨files.get i, List.mem_filter.mpr ⟨hmi, by simp⟩, rfl⟩
    · exact List.mem_map.mpr ⟨files.get j, List.mem_filter.mpr ⟨hmj, by simp [hcontent']⟩, rfl⟩
  · have hmzi : (archive_stored_name os (files.get i).path root dir_flag,
        (files.get i).content) ∈ create_zip_entries os root dir_flag files :=
      List.mem_map.mpr ⟨files.get i, hmi, rfl⟩
    have hmzj : (archive_stored_name os (files.get j).path root dir_flag,
        (files.get j).content) ∈ create_zip_entries os root dir_flag files :=
      List.mem_map.mpr ⟨files.get j, hmj, rfl⟩
    have hanyz : (create_zip_entries os root dir_flag files).any
        (fun e => hf e.2 == hf (files.get i).content) = true :=
      List.any_eq_true.mpr ⟨_, hmzi, by simp⟩
    rw [zip_index_lookup, if_pos hanyz]
    refine ⟨_, rfl, ?_, ?_⟩
    · exact List.mem_map.mpr ⟨_, List.mem_filter.mpr ⟨hmzi, by simp⟩, rfl⟩
    · exact List.mem_map.mpr ⟨_, List.mem_filter.mpr ⟨hmzj, by simp [hcontent']⟩, rfl⟩

/-- C5 witness: two distinct files with identical content `[1]`. -/
theorem c5_witness :
    ∃ d, get_hash_dict (fun _ => "h") OSKind.posix none false
          [FSFile.mk ["a", "x"] [1] true, FSFile.mk ["a", "y"] [1] true] = Except.ok d ∧
        (d.map Prod.fst).Nodup ∧
        (∃ l, alookup d "h" = some l ∧
          get_hash_dict_rel_name OSKind.posix ["a", "x"] none false ∈ l ∧
          get_hash_dict_rel_name OSKind.posix ["a", "y"] none false ∈ l) ∧
        (∃ lz, alookup (build_zip_hash_dict (fun _ => "h")
              (create_zip_entries OSKind.posix none false
                [FSFile.mk ["a", "x"] [1] true, FSFile.mk ["a", "y"] [1] true])) "h" = some lz ∧
          archive_stored_name OSKind.posix ["a", "x"] none false ∈ lz ∧
          archive_stored_name OSKind.posix ["a", "y"] none false ∈ lz) :=
  c5_duplicate_content_shares_key (fun _ => "h") OSKind.posix none false
    [FSFile.mk ["a", "x"] [1] true, FSFile.mk ["a", "y"] [1] true]
    ⟨0, by decide⟩ ⟨1, by decide⟩ (by decide) (by decide) rfl

/-! ### `get_common_root_directory` (verizip.py lines 29-43) and the root
choice of `create_zip` (lines 280-284) -/

/-- `check_all_iterable_values_equal` (lines 29-31): every later item of the
column equals its first item.  For an empty column the Python generator never
evaluates `iterable[0]`, so the result is `True`. -/
def check_all_iterable_values_equal (col : List String) : Bool :=
  match col with
  | [] => true
  | x :: xs => xs.all (fun y => y == x)

/-- Python `str.split(sep)` on a character list, for a single-character
separator (the program only ever passes the host path separator, `/` or
`\`). -/
def splitCharList (sep : Char) : List Char → List (List Char)
  | [] => [[]]
  | c :: cs =>
      let rest := splitCharList sep cs
      if c = sep then [] :: rest
      else
        match rest with
        | [] => [[c]]
        | r :: rs => (c :: r) :: rs

/-- Python `p.split(sep)` for a single-character separator. -/
def pySplit (sep : Char) (p : String) : List String :=
  (splitCharList sep p.toList).map String.mk

/-- Python `zip(*rows)` for a nonempty list of rows `r₀ :: rest`: produce
columns until some row is exhausted. -/
def zipColsAux : List String → List (List String) → List (List String)
  | [], _ => []
  | x :: xs, rest =>
      if rest.any (fun r => r.isEmpty) then []
      else (x :: rest.map (fun r => r.headD "")) :: zipColsAux xs (rest.map List.tail)

/-- Python `zip(*rows)` (line 36). -/
def zipCols (rows : List (List String)) : List (List String) :=
  match rows with
  | [] => []
  | r₀ :: rest => zipColsAux r₀ rest

/-- The component prefix computed inside `get_common_root_directory`
(lines 36-39): keep the leading columns of the zipped split paths on which
all entries agree, taking each kept column's first entry. -/
def commonComps (rows : List (List String)) : List String :=
  ((zipCols rows).takeWhile check_all_iterable_values_equal).map (fun col => col.headD "")

/-- `get_common_root_directory(paths, sep)` (lines 34-43): split every path
on the separator, join the agreeing leading components with the separator,
and return `None` when the joined string is empty. -/
def get_common_root_directory (paths : List String) (sep : Char) : Option String :=
  let common_directory :=
    String.intercalate (String.mk [sep]) (commonComps (paths.map (fun p => pySplit sep p)))
  if common_directory = "" then none else some common_directory

/-- Python `str.rstrip("/")` on a character list. -/
def rstripSlashes (l : List Char) : List Char :=
  (l.reverse.dropWhile (fun c => c = '/')).reverse

/-- `os.path.dirname` (POSIX): everything before the final separator, with
trailing separators stripped unless that head consists only of separators. -/
def os_path_dirname (p : String) : String :=
  let rev := p.toList.reverse
  let afterLast := rev.takeWhile (fun c => c ≠ '/')
  let head := (rev.drop afterLast.length).reverse
  if head ≠ [] ∧ head.any (fun c => c ≠ '/') then String.mk (rstripSlashes head)
  else String.mk head

/-- The root-directory choice in `create_zip` (lines 280-284): the parent
directory of the single input when there is exactly one input path, otherwise
`get_common_root_directory` over all input paths. -/
def create_zip_root_choice (input_paths : List String) (sep : Char) : Option String :=
  if input_paths.length = 1 then some (os_path_dirname (input_paths.headD ""))
  else get_common_root_directory input_paths sep

theorem check_all_cons_iff (x : String) (ys : List String) :
    check_all_iterable_values_equal (x :: ys) = true ↔ ∀ y ∈ ys, y = x := by
  simp [check_all_iterable_values_equal, List.all_eq_true]

theorem commonComps_spec :
    ∀ (r₀ : List String) (rest : List (List String)),
      (∀ r ∈ r₀ :: rest, ∃ tail, r = commonComps (r₀ :: rest) ++ tail) ∧
      (∀ q : List String, (∀ r ∈ r₀ :: rest, ∃ tail, r = q ++ tail) →
        q.length ≤ (commonComps (r₀ :: rest)).length) := by
  intro r₀
  induction r₀ with
  | nil =>
      intro rest
      have hC : commonComps ([] :: rest) = [] := by
        simp [commonComps, zipCols, zipColsAux]
      rw [hC]
      constructor
      · intro r _
        exact ⟨r, rfl⟩
      · intro q hq
        rcases hq [] (List.mem_cons_self _ _) with ⟨tail, htail⟩
        have : q = [] := by
          rcases List.append_eq_nil.mp htail.symm with ⟨hq0, _⟩
          exact hq0
        simp [this]
  | cons x xs ih =>
      intro rest
      by_cases hempty : rest.any (fun r => r.isEmpty) = true
      · have hC : commonComps ((x :: xs) :: rest) = [] := by
          simp [commonComps, zipCols, zipColsAux, hempty]
        rw [hC]
        constructor
        · intro r _
          exact ⟨r, rfl⟩
        · intro q hq
          rcases List.any_eq_true.mp hempty with ⟨r, hr, hre⟩
          have hrnil : r = [] := List.isEmpty_iff.mp hre
          rcases hq r (List.mem_cons_of_mem _ hr) with ⟨tail, htail⟩
          rw [hrnil] at htail
          rcases List.append_eq_nil.mp htail.symm with ⟨hq0, _⟩
          simp [hq0]
      · rw [Bool.not_eq_true] at hempty
        have hnonnil : ∀ r ∈ rest, r ≠ [] := by
          intro r hr hrnil
          have : rest.any (fun r => r.isEmpty) = true :=
            List.any_eq_true.mpr ⟨r, hr, by simp [hrnil]⟩
          rw [hempty] at this
          exact Bool.noConfusion this
        by_cases hall :
            check_all_iterable_values_equal (x :: rest.map (fun r => r.headD "")) = true
        · have hz : zipCols ((x :: xs) :: rest) =
              (x :: rest.map (fun r => r.headD "")) :: zipColsAux xs (rest.map List.tail) := by
            simp only [zipCols, zipColsAux, hempty, Bool.false_eq_true, if_false]
          have hC : commonComps ((x :: xs) :: rest) =
              x :: commonComps (xs :: rest.map List.tail) := by
            unfold commonComps
            rw [hz, List.takeWhile_cons, if_pos hall, List.map_cons, List.headD_cons]
            rfl
          have hheads : ∀ r ∈ rest, r.headD "" = x := by
            intro r hr
            exact (check_all_cons_iff _ _).mp hall (r.headD "") (List.mem_map_of_mem _ hr)
          rw [hC]
          obtain ⟨ihA, ihB⟩ := ih (rest.map List.tail)
          constructor
          · intro r hr
            rcases List.mem_cons.mp hr with hr0 | hrr
            · subst hr0
              rcases ihA xs (List.mem_cons_self _ _) with ⟨tail, htail⟩
              exact ⟨tail, by rw [List.cons_append, ← htail]⟩
            · rcases List.exists_cons_of_ne_nil (hnonnil r hrr) with ⟨a, t, hat⟩
              have ha : a = x := by
                have := hheads r hrr
                rw [hat] at this
                simpa using this
              have hmem : t ∈ xs :: rest.map List.tail := by
                refine List.mem_cons_of_mem _ (List.mem_map.mpr ⟨r, hrr, ?_⟩)
                simp [hat]
              rcases ihA t hmem with ⟨tail, htail⟩
              refine ⟨tail, ?_⟩
              rw [hat, ha, htail, List.cons_append]
          · intro q hq
            match q with
            | [] => simp
            | a :: q' =>
                rcases hq (x :: xs) (List.mem_cons_self _ _) with ⟨tail, htail⟩
                have hax : a = x := by
                  have := congrArg (fun l => l.headD "") htail
                  simpa using this.symm
                have hq' : ∀ s ∈ xs :: rest.map List.tail, ∃ t, s = q' ++ t := by
                  intro s hs
                  rcases List.mem_cons.mp hs with hs0 | hsr
                  · subst hs0
                    refine ⟨tail, ?_⟩
                    have := congrArg List.tail htail
                    simpa using this
                  · rcases List.mem_map.mp hsr with ⟨r, hrr, hrt⟩
                    rcases hq r (List.mem_cons_of_mem _ hrr) with ⟨t, ht⟩
                    rcases List.exists_cons_of_ne_nil (hnonnil r hrr) with ⟨b, u, hbu⟩
                    refine ⟨t, ?_⟩
                    rw [← hrt, hbu]
                    rw [hbu] at ht
                    have : b :: u = a :: (q' ++ t) := by
                      simpa using ht
                    simp [List.tail]
                    exact (List.cons.injEq _ _ _ _).mp this |>.2
                have := ihB q' hq'
                simpa using Nat.succ_le_succ this
        · have hC : commonComps ((x :: xs) :: rest) = [] := by
            simp only [commonComps, zipCols, zipColsAux, hempty, Bool.false_eq_true, if_false,
              List.takeWhile_cons, hall]
            simp
          rw [hC]
          constructor
          · intro r _
            exact ⟨r, rfl⟩
          · intro q hq
            match q with
            | [] => simp
            | a :: q' =>
                exfalso
                rcases hq (x :: xs) (List.mem_cons_self _ _) with ⟨tail, htail⟩
                have hax : a = x := by
                  have := congrArg (fun l => l.headD "") htail
                  simpa using this.symm
                apply hall
                rw [check_all_cons_iff]
                intro y hy
                rcases List.mem_map.mp hy with ⟨r, hrr, hrh⟩
                rcases hq r (List.mem_cons_of_mem _ hrr) with ⟨t, ht⟩
                rw [← hrh, ht]
                simp [hax]

/-- C6: for every non-empty list of paths and separator,
`get_common_root_directory` returns exactly the longest prefix of path
components on which all split paths agree component-wise (it is a prefix of
every split path, and no longer common prefix exists), rejoined with the
separator, and returns `None` when that joined prefix is the empty string;
and when exactly one input path is given, `create_zip` uses that path's
parent directory as the root instead of calling the common-root function. -/
theorem c6_common_root_directory :
    ∀ (paths : List String) (sep : Char), paths ≠ [] →
      ((∀ r ∈ paths.map (fun p => pySplit sep p), ∃ tail,
          r = commonComps (paths.map (fun p => pySplit sep p)) ++ tail) ∧
        (∀ q : List String,
          (∀ r ∈ paths.map (fun p => pySplit sep p), ∃ tail, r = q ++ tail) →
          q.length ≤ (commonComps (paths.map (fun p => pySplit sep p))).length) ∧
        get_common_root_directory paths sep =
          (if String.intercalate (String.mk [sep])
                (commonComps (paths.map (fun p => pySplit sep p))) = ""
           then none
           else some (String.intercalate (String.mk [sep])
             (commonComps (paths.map (fun p => pySplit sep p)))))) ∧
      (∀ p : String, create_zip_root_choice [p] sep = some (os_path_dirname p)) ∧
      (2 ≤ paths.length → create_zip_root_choice paths sep = get_common_root_directory paths sep) := by
  intro paths sep hne
  rcases List.exists_cons_of_ne_nil hne with ⟨p₀, prest, hps⟩
  subst hps
  refine ⟨?_, ?_, ?_⟩
  · simp only [List.map_cons]
    exact ⟨(commonComps_spec (pySplit sep p₀) (prest.map (fun p => pySplit sep p))).1,
      (commonComps_spec (pySplit sep p₀) (prest.map (fun p => pySplit sep p))).2, rfl⟩
  · intro p
    simp [create_zip_root_choice]
  · intro h2
    have hlen : ¬ (p₀ :: prest).length = 1 := by
      simp only [List.length_cons] at h2 ⊢
      omega
    rw [create_zip_root_choice, if_neg hlen]

/-- C6 witness: the theorem applied to the concrete inputs `/a/b/x` and
`/a/b/y` with separator `/`, whose common root is `/a/b`. -/
theorem c6_witness :
    (["/a/b/x", "/a/b/y"] : List String) ≠ [] ∧
      get_common_root_directory ["/a/b/x", "/a/b/y"] '/' = some "/a/b" ∧
      (∀ r ∈ (["/a/b/x", "/a/b/y"] : List String).map (fun p => pySplit '/' p), ∃ tail,
        r = commonComps ((["/a/b/x", "/a/b/y"] : List String).map (fun p => pySplit '/' p)) ++
          tail) :=
  ⟨by decide, by decide,
    (c6_common_root_directory ["/a/b/x", "/a/b/y"] '/' (by decide)).1.1⟩

/-! ### `get_file_paths_and_size` (verizip.py lines 121-166) -/

/-- A filesystem subtree: a regular file with its byte size, or a directory
with its entries. -/
inductive FSTree
  | file (name : String) (size : Nat)
  | dir (name : String) (entries : List FSTree)

/-- The reserved Windows folder names excluded by the
`--ignore-windows-volume-folders` flag (line 129). -/
def EXCLUDE_FOLDERS : List String := ["$RECYCLE.BIN", "System Volume Information"]

/-- Python `name[0] == "."` as used on lines 136-137 (names of real
filesystem entries are never empty). -/
def startsWithDot (n : String) : Bool :=
  match n.toList with
  | [] => false
  | c :: _ => c = '.'

/-- Whether an entry survives the pruning of lines 135-162: with
`ignore_dotfiles`, files and directories whose name starts with `.` are
dropped (directories before descending, line 137); with
`ignore_windows_volume_folders`, directories named exactly one of
`EXCLUDE_FOLDERS` are dropped before descending (line 162).  Files are never
filtered by the reserved-folder rule. -/
def keepEntry (ignore_dotfiles ignore_windows_volume_folders : Bool) : FSTree → Bool
  | .file n _ => !(ignore_dotfiles && startsWithDot n)
  | .dir n _ =>
      !(ignore_dotfiles && startsWithDot n) &&
        !(ignore_windows_volume_folders && decide (n ∈ EXCLUDE_FOLDERS))

mutual
/-- The `os.walk` traversal of `get_file_paths_and_size` over one directory's
entries, with the pruning applied before descending: the produced file paths
(component lists `cur ++ …`) and the summed `os.path.getsize` values.  The
source appends each root's files before descending and sorts the final list
(line 166), so only the multiset of produced paths matters. -/
def walkEntries (ignore_dotfiles ignore_windows_volume_folders : Bool) (cur : List String) :
    List FSTree → List (List String) × Nat
  | [] => ([], 0)
  | t :: ts =>
      let rest := walkEntries ignore_dotfiles ignore_windows_volume_folders cur ts
      if keepEntry ignore_dotfiles ignore_windows_volume_folders t then
        let r := walkOne ignore_dotfiles ignore_windows_volume_folders cur t
        (r.1 ++ rest.1, r.2 + rest.2)
      else rest

/-- One kept entry: a file contributes its path and size; a directory is
descended into. -/
def walkOne (ignore_dotfiles ignore_windows_volume_folders : Bool) (cur : List String) :
    FSTree → List (List String) × Nat
  | .file n s => ([cur ++ [n]], s)
  | .dir n entries =>
      walkEntries ignore_dotfiles ignore_windows_volume_folders (cur ++ [n]) entries
end

/-- `get_file_paths_and_size` (lines 121-166) for one input directory with
path `cur` and entries `entries` (the only call shape used by `create_zip`):
walk with pruning, then return the sorted joined file paths and the total
size. -/
def get_file_paths_and_size (ignore_dotfiles ignore_windows_volume_folders : Bool)
    (cur : List String) (entries : List FSTree) : List String × Nat :=
  let r := walkEntries ignore_dotfiles ignore_windows_volume_folders cur entries
  (ssort (r.1.map joinPath), r.2)

mutual
/-- The unfiltered enumeration of every file in a list of entries. -/
def allFilesEntries (cur : List String) : List FSTree → List (List String) × Nat
  | [] => ([], 0)
  | t :: ts =>
      let r := allFilesOne cur t
      let rest := allFilesEntries cur ts
      (r.1 ++ rest.1, r.2 + rest.2)

/-- The unfiltered enumeration of one entry. -/
def allFilesOne (cur : List String) : FSTree → List (List String) × Nat
  | .file n s => ([cur ++ [n]], s)
  | .dir n entries => allFilesEntries (cur ++ [n]) entries
end

mutual
theorem walkEntries_no_flags (cur : List String) :
    ∀ (es : List FSTree), walkEntries false false cur es = allFilesEntries cur es
  | [] => by simp [walkEntries, allFilesEntries]
  | t :: ts => by
      have h1 := walkOne_no_flags cur t
      have h2 := walkEntries_no_flags cur ts
      have hk : keepEntry false false t = true := by
        cases t <;> simp [keepEntry]
      simp [walkEntries, allFilesEntries, hk, h1, h2]

theorem walkOne_no_flags (cur : List String) :
    ∀ (t : FSTree), walkOne false false cur t = allFilesOne cur t
  | .file n s => by simp [walkOne, allFilesOne]
  | .dir n entries => by
      have := walkEntries_no_flags (cur ++ [n]) entries
      simp [walkOne, allFilesOne, this]
end

mutual
theorem walkEntries_dot (vol : Bool) (cur : List String) :
    ∀ (es : List FSTree), ∀ p ∈ (walkEntries true vol cur es).1,
      ∃ rest, p = cur ++ rest ∧ rest ≠ [] ∧ ∀ c ∈ rest, ¬ startsWithDot c
  | [] => by simp [walkEntries]
  | t :: ts => by
      intro p hp
      by_cases hk : keepEntry true vol t = true
      · simp only [walkEntries, hk, if_true] at hp
        rcases List.mem_append.mp hp with h1 | h2
        · exact walkOne_dot vol cur t hk p h1
        · exact walkEntries_dot vol cur ts p h2
      · rw [Bool.not_eq_true] at hk
        simp only [walkEntries, hk, Bool.false_eq_true, if_false] at hp
        exact walkEntries_dot vol cur ts p hp

theorem walkOne_dot (vol : Bool) (cur : List String) :
    ∀ (t : FSTree), keepEntry true vol t = true →
      ∀ p ∈ (walkOne true vol cur t).1,
        ∃ rest, p = cur ++ rest ∧ rest ≠ [] ∧ ∀ c ∈ rest, ¬ startsWithDot c
  | .file n s => by
      intro hk p hp
      simp only [walkOne, List.mem_singleton] at hp
      subst hp
      refine ⟨[n], rfl, by simp, ?_⟩
      intro c hc
      simp only [List.mem_singleton] at hc
      subst hc
      simp only [keepEntry, Bool.true_and, Bool.not_eq_true'] at hk
      simp [hk]
  | .dir n entries => by
      intro hk p hp
      simp only [walkOne] at hp
      rcases walkEntries_dot vol (cur ++ [n]) entries p hp with ⟨rest, hrest, _, hclean⟩
      refine ⟨n :: rest, ?_, by simp, ?_⟩
      · rw [hrest, List.append_assoc]
        rfl
      · intro c hc
        rcases List.mem_cons.mp hc with hc1 | hc2
        · subst hc1
          simp only [keepEntry, Bool.true_and, Bool.and_eq_true, Bool.not_eq_true'] at hk
          simp [hk.1]
        · exact hclean c hc2
end

mutual
theorem walkEntries_vol (dot : Bool) (cur : List String) :
    ∀ (es : List FSTree), ∀ p ∈ (walkEntries dot true cur es).1,
      ∃ rest, p = cur ++ rest ∧ rest ≠ [] ∧ ∀ c ∈ rest.dropLast, c ∉ EXCLUDE_FOLDERS
  | [] => by simp [walkEntries]
  | t :: ts => by
      intro p hp
      by_cases hk : keepEntry dot true t = true
      · simp only [walkEntries, hk, if_true] at hp
        rcases List.mem_append.mp hp with h1 | h2
        · exact walkOne_vol dot cur t hk p h1
        · exact walkEntries_vol dot cur ts p h2
      · rw [Bool.not_eq_true] at hk
        simp only [walkEntries, hk, Bool.false_eq_true, if_false] at hp
        exact walkEntries_vol dot cur ts p hp

theorem walkOne_vol (dot : Bool) (cur : List String) :
    ∀ (t : FSTree), keepEntry dot true t = true →
      ∀ p ∈ (walkOne dot true cur t).1,
        ∃ rest, p = cur ++ rest ∧ rest ≠ [] ∧ ∀ c ∈ rest.dropLast, c ∉ EXCLUDE_FOLDERS
  | .file n s => by
      intro _ p hp
      simp only [walkOne, List.mem_singleton] at hp
      subst hp
      refine ⟨[n], rfl, by simp, ?_⟩
      intro c hc
      simp [List.dropLast_single] at hc
  | .dir n entries => by
      intro hk p hp
      simp only [walkOne] at hp
      rcases walkEntries_vol dot (cur ++ [n]) entries p hp with ⟨rest, hrest, hne, hclean⟩
      refine ⟨n :: rest, ?_, by simp, ?_⟩
      · rw [hrest, List.append_assoc]
        rfl
      · intro c hc
        rcases List.exists_cons_of_ne_nil hne with ⟨b, u, hbu⟩
        subst hbu
        rw [List.dropLast_cons₂] at hc
        rcases List.mem_cons.mp hc with hc1 | hc2
        · subst hc1
          simp only [keepEntry, Bool.and_eq_true, Bool.true_and, Bool.not_eq_true'] at hk
          exact of_decide_eq_false hk.2
        · exact hclean c hc2
end

/-- C8: with the ignore-dotfiles flag enabled, enumeration excludes every
file or directory entry (below the walked input path) whose name starts with
`.`, dot-directories being pruned before descending so none of their contents
appear; with the ignore-reserved-folders flag enabled, directories named
exactly `$RECYCLE.BIN` or `System Volume Information` are pruned before
descending wherever encountered (while files with those names are kept, the
rule filters directories only); and with both flags disabled the enumeration
is the unfiltered one — every file of the tree is included. -/
theorem c8_exclusion_rules :
    ∀ (dot vol : Bool) (cur : List String) (entries : List FSTree),
      (∀ p ∈ (get_file_paths_and_size true vol cur entries).1,
        ∃ rest, p = joinPath (cur ++ rest) ∧ rest ≠ [] ∧ ∀ c ∈ rest, ¬ startsWithDot c) ∧
      (∀ p ∈ (get_file_paths_and_size dot true cur entries).1,
        ∃ rest, p = joinPath (cur ++ rest) ∧ rest ≠ [] ∧
          ∀ c ∈ rest.dropLast, c ∉ EXCLUDE_FOLDERS) ∧
      get_file_paths_and_size false false cur entries =
        (ssort ((allFilesEntries cur entries).1.map joinPath),
          (allFilesEntries cur entries).2) := by
  intro dot vol cur entries
  refine ⟨?_, ?_, ?_⟩
  · intro p hp
    simp only [get_file_paths_and_size] at hp
    rw [mem_ssort] at hp
    rcases List.mem_map.mp hp with ⟨q, hq, hjoin⟩
    rcases walkEntries_dot vol cur entries q hq with ⟨rest, hrest, hne, hclean⟩
    exact ⟨rest, by rw [← hjoin, hrest], hne, hclean⟩
  · intro p hp
    simp only [get_file_paths_and_size] at hp
    rw [mem_ssort] at hp
    rcases List.mem_map.mp hp with ⟨q, hq, hjoin⟩
    rcases walkEntries_vol dot cur entries q hq with ⟨rest, hrest, hne, hclean⟩
    exact ⟨rest, by rw [← hjoin, hrest], hne, hclean⟩
  · simp only [get_file_paths_and_size, walkEntries_no_flags]

/-- C8 witness: a directory containing a dotfile, a reserved folder with one
file inside, and a plain file; with both flags on, only the plain file is
enumerated, and the theorem describes its path. -/
theorem c8_witness :
    (∃ rest, "root/ok.txt" = joinPath (["root"] ++ rest) ∧ rest ≠ [] ∧
      ∀ c ∈ rest, ¬ startsWithDot c) ∧
      get_file_paths_and_size true true ["root"]
          [FSTree.file ".hidden" 1,
            FSTree.dir "$RECYCLE.BIN" [FSTree.file "z" 2],
            FSTree.file "ok.txt" 3] = (["root/ok.txt"], 3) ∧
      get_file_paths_and_size false false ["root"]
          [FSTree.file ".hidden" 1,
            FSTree.dir "$RECYCLE.BIN" [FSTree.file "z" 2],
            FSTree.file "ok.txt" 3] =
        (["root/$RECYCLE.BIN/z", "root/.hidden", "root/ok.txt"], 6) :=
  ⟨(c8_exclusion_rules true true ["root"]
        [FSTree.file ".hidden" 1,
          FSTree.dir "$RECYCLE.BIN" [FSTree.file "z" 2],
          FSTree.file "ok.txt" 3]).1 "root/ok.txt" (by decide),
    by decide, by decide⟩

/-! ### `get_safe_file_path` (verizip.py lines 240-254)

The loop queries `os.path.isfile`, so the filesystem is passed explicitly as
the list of existing file paths.  The `os.path` string helpers are modelled
at the character-list level, following `posixpath`. -/

/-- `os.path.basename` (POSIX): the part after the final separator. -/
def os_path_basename (p : String) : String :=
  String.mk (p.toList.reverse.takeWhile (fun c => c ≠ '/')).reverse

/-- `os.path.splitext` (POSIX): split at the final dot of the basename,
unless every character of the basename before that dot is itself a dot
(leading-dot names such as `.bashrc` have no extension). -/
def os_path_splitext (p : String) : String × String :=
  let cs := p.toList
  let rev := cs.reverse
  let bnRev := rev.takeWhile (fun c => c ≠ '/')
  let afterDotRev := bnRev.takeWhile (fun c => c ≠ '.')
  if afterDotRev.length = bnRev.length then (p, "")
  else
    let beforeRev := bnRev.drop (afterDotRev.length + 1)
    if beforeRev.all (fun c => c = '.') then (p, "")
    else
      let extLen := afterDotRev.length + 1
      (String.mk (cs.take (cs.length - extLen)), String.mk (cs.drop (cs.length - extLen)))

/-- `os.path.join(a, b)` (POSIX), for the two-argument uses in the source. -/
def os_path_join (a b : String) : String :=
  if b.toList.headD ' ' = '/' then b
  else if a = "" ∨ a.toList.getLast? = some '/' then a ++ b
  else a ++ "/" ++ b

/-- Little-endian decimal digits of `n`, fuel-indexed; `fuel ≥ n` suffices. -/
def decDigits : Nat → Nat → List Nat
  | 0, _ => []
  | fuel + 1, n => if n = 0 then [] else n % 10 :: decDigits fuel (n / 10)

/-- The character of one decimal digit. -/
def digitChar (d : Nat) : Char := Char.ofNat (48 + d)

/-- Python `"{}".format(n)` for a natural number: its decimal numeral. -/
def natToDecimal (n : Nat) : String :=
  if n = 0 then "0" else String.mk ((decDigits n n).reverse.map digitChar)

/-- The `while os.path.isfile(file_path)` loop of `get_safe_file_path`
(lines 244-253): as long as a file exists at the current path, rebuild it as
`{noext}_{suffix}{ext}` in the same directory (the noext stem is fixed from
the original path, the directory and extension are recomputed from the
current path) and bump the suffix.  The source loop terminates because the
candidate names are pairwise distinct, so `existing.length + 1` iterations
always suffice; the fuel makes that termination explicit. -/
def safeLoop (existing : List String) (file_basename_noext : String) :
    Nat → String → Nat → String
  | 0, file_path, _ => file_path
  | fuel + 1, file_path, filename_suffix =>
      if file_path ∈ existing then
        safeLoop existing file_basename_noext fuel
          (os_path_join (os_path_dirname file_path)
            (file_basename_noext ++ "_" ++ natToDecimal filename_suffix ++
              (os_path_splitext file_path).2))
          (filename_suffix + 1)
      else file_path

/-- `get_safe_file_path` (verizip.py lines 240-254). -/
def get_safe_file_path (existing : List String) (file_path : String) : String :=
  safeLoop existing (os_path_splitext (os_path_basename file_path)).1
    (existing.length + 1) file_path 2

/-- The possible shapes of an `os.path.dirname` result (and of `"."` replaced
by the empty string): empty, all separators (a filesystem root), or ending in
a non-separator.  Every directory part appearing in the program satisfies
this. -/
def dirnameNormal (d : String) : Prop :=
  d = "" ∨ (∀ c ∈ d.toList, c = '/') ∨ d.toList.getLast? ≠ some '/'

/-- The well-formed (stem, extension) shapes: either no extension with a
dot-free stem, or an extension `.t` with `t` dot- and slash-free and a stem
containing at least one non-dot character.  `out.zip` splits as
`("out", ".zip")`. -/
def extShape (x e : String) : Prop :=
  (e = "" ∧ '.' ∉ x.toList) ∨
    (∃ t : List Char, e.toList = '.' :: t ∧ '.' ∉ t ∧ '/' ∉ t ∧ ∃ c ∈ x.toList, c ≠ '.')

/-- The candidate file name built in iteration `k` of the loop. -/
def candName (b e : String) (k : Nat) : String := b ++ "_" ++ natToDecimal k ++ e

/-- The candidate path built in iteration `k` of the loop. -/
def cand (d b e : String) (k : Nat) : String := os_path_join d (candName b e k)

theorem toList_ne_nil (s : String) (h : s ≠ "") : s.toList ≠ [] := by
  intro hl
  apply h
  cases s with
  | mk data =>
      have hdata : data = [] := hl
      rw [hdata]

theorem takeWhile_rev_concat (pre : List Char) (n : String)
    (hpre : pre.reverse.takeWhile (fun c => c ≠ '/') = [])
    (hn : '/' ∉ n.toList) :
    (String.mk (pre ++ n.toList)).toList.reverse.takeWhile (fun c => c ≠ '/') =
      n.toList.reverse := by
  have h1 : (String.mk (pre ++ n.toList)).toList = pre ++ n.toList := rfl
  rw [h1, List.reverse_append]
  rw [List.takeWhile_append_of_pos]
  · rw [hpre, List.append_nil]
  · intro a ha
    simp only [decide_eq_true_eq]
    exact fun h => hn (h ▸ List.mem_reverse.mp ha)

theorem os_path_dirname_heads (p : String) :
    os_path_dirname p =
      (if (p.toList.reverse.drop
            (p.toList.reverse.takeWhile (fun c => c ≠ '/')).length).reverse ≠ [] ∧
          (p.toList.reverse.drop
            (p.toList.reverse.takeWhile (fun c => c ≠ '/')).length).reverse.any
            (fun c => c ≠ '/')
       then String.mk (rstripSlashes ((p.toList.reverse.drop
            (p.toList.reverse.takeWhile (fun c => c ≠ '/')).length).reverse))
       else String.mk ((p.toList.reverse.drop
            (p.toList.reverse.takeWhile (fun c => c ≠ '/')).length).reverse)) := rfl

theorem os_path_dirname_concat (pre : List Char) (n : String)
    (hpre : pre.reverse.takeWhile (fun c => c ≠ '/') = [])
    (hn : '/' ∉ n.toList) :
    os_path_dirname (String.mk (pre ++ n.toList)) =
      (if pre ≠ [] ∧ pre.any (fun c => c ≠ '/') then String.mk (rstripSlashes pre)
       else String.mk pre) := by
  have hbn := takeWhile_rev_concat pre n hpre hn
  have h1 : (String.mk (pre ++ n.toList)).toList = pre ++ n.toList := rfl
  have hdrop : ((String.mk (pre ++ n.toList)).toList.reverse.drop
      ((String.mk (pre ++ n.toList)).toList.reverse.takeWhile
        (fun c => c ≠ '/')).length).reverse = pre := by
    rw [hbn, h1, List.reverse_append, List.drop_left, List.reverse_reverse]
  rw [os_path_dirname_heads, hdrop]

theorem os_path_join_cases (d n : String) (hd : dirnameNormal d) (hn : '/' ∉ n.toList)
    (hne : n ≠ "") :
    ∃ pre : List Char, os_path_join d n = String.mk (pre ++ n.toList) ∧
      pre.reverse.takeWhile (fun c => c ≠ '/') = [] ∧
      ((pre = [] ∧ d = "") ∨
        (pre = d.toList ∧ d ≠ "" ∧ ∀ c ∈ d.toList, c = '/') ∨
        (pre = d.toList ++ ['/'] ∧ d ≠ "" ∧ d.toList.getLast? ≠ some '/')) := by
  have hnl : n.toList ≠ [] := toList_ne_nil n hne
  obtain ⟨c0, cs0, hcs0⟩ := List.exists_cons_of_ne_nil hnl
  have hc0 : c0 ≠ '/' := by
    intro h
    exact hn (h ▸ (hcs0 ▸ List.mem_cons_self c0 cs0))
  have hcond1 : ¬ (n.toList.headD ' ' = '/') := by
    rw [hcs0]
    simpa using hc0
  by_cases hd0 : d = ""
  · refine ⟨[], ?_, by simp, Or.inl ⟨rfl, hd0⟩⟩
    subst hd0
    have hj : os_path_join "" n = n := by
      unfold os_path_join
      rw [if_neg hcond1, if_pos (Or.inl rfl)]
      rfl
    rw [hj]
    rfl
  · by_cases hall : ∀ c ∈ d.toList, c = '/'
    · have hdl : d.toList ≠ [] := toList_ne_nil d hd0
      have hrevne : d.toList.reverse ≠ [] := by simpa using hdl
      obtain ⟨e0, es0, hes0⟩ := List.exists_cons_of_ne_nil hrevne
      have he0 : e0 = '/' := hall e0 (List.mem_reverse.mp (hes0 ▸ List.mem_cons_self e0 es0))
      have hlast : d.toList.getLast? = some '/' := by
        rw [← List.head?_reverse, hes0, he0]
        rfl
      have hj : os_path_join d n = d ++ n := by
        unfold os_path_join
        rw [if_neg hcond1, if_pos (Or.inr hlast)]
      refine ⟨d.toList, by rw [hj]; rfl, ?_, Or.inr (Or.inl ⟨rfl, hd0, hall⟩)⟩
      rw [hes0]
      simp [List.takeWhile_cons, he0]
    · have hlastne : d.toList.getLast? ≠ some '/' := by
        rcases hd with h | h | h
        · exact absurd h hd0
        · exact absurd h hall
        · exact h
      have hor : ¬ (d = "" ∨ d.toList.getLast? = some '/') := by
        rintro (h | h)
        · exact hd0 h
        · exact hlastne h
      have hj : os_path_join d n = d ++ "/" ++ n := by
        unfold os_path_join
        rw [if_neg hcond1, if_neg hor]
      refine ⟨d.toList ++ ['/'], by rw [hj]; rfl, ?_,
        Or.inr (Or.inr ⟨rfl, hd0, hlastne⟩)⟩
      rw [List.reverse_append]
      simp [List.takeWhile_cons]

theorem os_path_basename_join (d n : String) (hd : dirnameNormal d) (hn : '/' ∉ n.toList)
    (hne : n ≠ "") : os_path_basename (os_path_join d n) = n := by
  obtain ⟨pre, hj, hpre, _⟩ := os_path_join_cases d n hd hn hne
  unfold os_path_basename
  rw [hj, takeWhile_rev_concat pre n hpre hn, List.reverse_reverse]
  rfl

theorem os_path_dirname_join (d n : String) (hd : dirnameNormal d) (hn : '/' ∉ n.toList)
    (hne : n ≠ "") : os_path_dirname (os_path_join d n) = d := by
  obtain ⟨pre, hj, hpre, hcase⟩ := os_path_join_cases d n hd hn hne
  rw [hj, os_path_dirname_concat pre n hpre hn]
  rcases hcase with ⟨h1, h2⟩ | ⟨h1, h2, h3⟩ | ⟨h1, h2, h3⟩
  · subst h1
    subst h2
    simp
  · subst h1
    have hany : d.toList.any (fun c => c ≠ '/') = false := by
      rw [Bool.eq_false_iff]
      intro h
      rcases List.any_eq_true.mp h with ⟨a, ha, hane⟩
      simp only [decide_eq_true_eq] at hane
      exact hane (h3 a ha)
    rw [if_neg]
    · rfl
    · rintro ⟨_, h⟩
      rw [hany] at h
      exact Bool.noConfusion h
  · subst h1
    have hdl : d.toList ≠ [] := toList_ne_nil d h2
    have hrevne : d.toList.reverse ≠ [] := by simpa using hdl
    obtain ⟨g0, gs0, hgs0⟩ := List.exists_cons_of_ne_nil hrevne
    have hg0 : d.toList.getLast? = some g0 := by
      rw [← List.head?_reverse, hgs0]
      rfl
    have hg0ne : g0 ≠ '/' := by
      intro h
      exact h3 (by rw [hg0, h])
    have hg0mem : g0 ∈ d.toList := List.mem_reverse.mp (hgs0 ▸ List.mem_cons_self g0 gs0)
    have hany : (d.toList ++ ['/']).any (fun c => c ≠ '/') = true :=
      List.any_eq_true.mpr ⟨g0, List.mem_append_left _ hg0mem, by simpa using hg0ne⟩
    have hrstrip : rstripSlashes (d.toList ++ ['/']) = d.toList := by
      unfold rstripSlashes
      rw [List.reverse_append]
      have : (['/'] : List Char).reverse ++ d.toList.reverse = '/' :: d.toList.reverse := rfl
      rw [this, List.dropWhile_cons]
      simp only [decide_True, if_true]
      rw [hgs0, List.dropWhile_cons]
      simp [hg0ne, hgs0.symm]
    rw [if_pos ⟨by simp, hany⟩, hrstrip]
    rfl

theorem os_path_splitext_eq (p : String) (bnRev afterDotRev : List Char)
    (hbn : p.toList.reverse.takeWhile (fun c => c ≠ '/') = bnRev)
    (had : bnRev.takeWhile (fun c => c ≠ '.') = afterDotRev) :
    os_path_splitext p =
      (if afterDotRev.length = bnRev.length then (p, "")
       else if (bnRev.drop (afterDotRev.length + 1)).all (fun c => c = '.') then (p, "")
       else (String.mk (p.toList.take (p.toList.length - (afterDotRev.length + 1))),
         String.mk (p.toList.drop (p.toList.length - (afterDotRev.length + 1))))) := by
  subst had
  subst hbn
  rfl

theorem splitext_concat (pre : List Char) (x e : String)
    (hpre : pre.reverse.takeWhile (fun c => c ≠ '/') = [])
    (hx : '/' ∉ x.toList) (hxe : x ≠ "") (he : extShape x e) :
    os_path_splitext (String.mk (pre ++ (x.toList ++ e.toList))) =
      (String.mk (pre ++ x.toList), e) := by
  have hxl : x.toList ≠ [] := toList_ne_nil x hxe
  have hxpos : 0 < x.toList.length := List.length_pos.mpr hxl
  rcases he with ⟨he1, he2⟩ | ⟨t, het, htd, hts, c, hc, hcd⟩
  · subst he1
    have hes : ("" : String).toList = ([] : List Char) := rfl
    have hsl : String.mk (pre ++ (x.toList ++ ("" : String).toList)) =
        String.mk (pre ++ x.toList) := by
      rw [hes, List.append_nil]
    rw [hsl]
    have hbn : (String.mk (pre ++ x.toList)).toList.reverse.takeWhile (fun c => c ≠ '/') =
        x.toList.reverse := takeWhile_rev_concat pre x hpre hx
    have had : x.toList.reverse.takeWhile (fun c => c ≠ '.') = x.toList.reverse := by
      rw [List.takeWhile_eq_self_iff]
      intro a ha
      simp only [decide_eq_true_eq]
      exact fun h => he2 (h ▸ List.mem_reverse.mp ha)
    rw [os_path_splitext_eq _ _ _ hbn had, if_pos rfl]
  · have hesl : '/' ∉ e.toList := by
      rw [het]
      intro hmem
      rcases List.mem_cons.mp hmem with h | h
      · exact absurd h.symm (by decide)
      · exact hts h
    have hxesl : '/' ∉ (x ++ e).toList := by
      have : (x ++ e).toList = x.toList ++ e.toList := rfl
      rw [this]
      intro hmem
      rcases List.mem_append.mp hmem with h | h
      · exact hx h
      · exact hesl h
    have hbn : (String.mk (pre ++ (x.toList ++ e.toList))).toList.reverse.takeWhile
        (fun c => c ≠ '/') = (x.toList ++ e.toList).reverse := by
      have h1 : String.mk (pre ++ (x.toList ++ e.toList)) =
          String.mk (pre ++ (x ++ e).toList) := rfl
      rw [h1]
      exact takeWhile_rev_concat pre (x ++ e) hpre hxesl
    have hbn2 : (x.toList ++ e.toList).reverse = (t.reverse ++ ['.']) ++ x.toList.reverse := by
      rw [List.reverse_append, het, List.reverse_cons]
    have had : ((x.toList ++ e.toList).reverse).takeWhile (fun c => c ≠ '.') = t.reverse := by
      rw [hbn2, List.append_assoc]
      rw [List.takeWhile_append_of_pos]
      · have : (['.'] ++ x.toList.reverse).takeWhile (fun c => c ≠ '.') = [] := by
          simp [List.takeWhile_cons]
        rw [this, List.append_nil]
      · intro a ha
        simp only [decide_eq_true_eq]
        exact fun h => htd (h ▸ List.mem_reverse.mp ha)
    rw [os_path_splitext_eq _ _ _ hbn had]
    have hlen : ¬ t.reverse.length = ((x.toList ++ e.toList).reverse).length := by
      simp only [List.length_reverse, List.length_append, het, List.length_cons]
      omega
    rw [if_neg hlen]
    have hdrop1 : ((x.toList ++ e.toList).reverse).drop (t.reverse.length + 1) =
        x.toList.reverse := by
      rw [hbn2]
      have hlen2 : t.reverse.length + 1 = (t.reverse ++ ['.']).length := by simp
      rw [hlen2, List.drop_left]
    have hall : (x.toList.reverse.all fun c => c = '.') = false := by
      rw [Bool.eq_false_iff]
      intro hall'
      have := List.all_eq_true.mp hall' c (List.mem_reverse.mpr hc)
      simp only [decide_eq_true_eq] at this
      exact hcd this
    rw [hdrop1, if_neg (by rw [hall]; exact Bool.noConfusion)]
    have htotal : (String.mk (pre ++ (x.toList ++ e.toList))).toList =
        (pre ++ x.toList) ++ e.toList := by
      show pre ++ (x.toList ++ e.toList) = (pre ++ x.toList) ++ e.toList
      rw [List.append_assoc]
    have hextlen : t.reverse.length + 1 = e.toList.length := by
      rw [het]
      simp
    have hlen3 : (String.mk (pre ++ (x.toList ++ e.toList))).toList.length -
        (t.reverse.length + 1) = (pre ++ x.toList).length := by
      rw [htotal, hextlen, List.length_append]
      omega
    rw [hlen3, htotal, List.take_left, List.drop_left]
    rfl

theorem splitext_name (x e : String) (hx : '/' ∉ x.toList) (hxe : x ≠ "")
    (he : extShape x e) : os_path_splitext (x ++ e) = (x, e) := by
  have h : x ++ e = String.mk ([] ++ (x.toList ++ e.toList)) := rfl
  rw [h, splitext_concat [] x e (by simp) hx hxe he]
  rfl

theorem splitext_join_ext (d x e : String) (hd : dirnameNormal d) (hx : '/' ∉ x.toList)
    (hxe : x ≠ "") (he : extShape x e) :
    (os_path_splitext (os_path_join d (x ++ e))).2 = e := by
  have hesl : '/' ∉ e.toList := by
    rcases he with ⟨he1, _⟩ | ⟨t, het, _, hts, _⟩
    · rw [he1]
      simp [String.toList]
    · rw [het]
      intro hmem
      rcases List.mem_cons.mp hmem with h | h
      · exact absurd h.symm (by decide)
      · exact hts h
  have hxesl : '/' ∉ (x ++ e).toList := by
    have h1 : (x ++ e).toList = x.toList ++ e.toList := rfl
    rw [h1]
    intro hmem
    rcases List.mem_append.mp hmem with h | h
    · exact hx h
    · exact hesl h
  have hxene : x ++ e ≠ "" := by
    intro hcontr
    have h1 : (x ++ e).toList = x.toList ++ e.toList := rfl
    have h2 : (x ++ e).toList = [] := by rw [hcontr]; rfl
    rw [h1] at h2
    exact toList_ne_nil x hxe (List.append_eq_nil.mp h2).1
  obtain ⟨pre, hj, hpre, _⟩ := os_path_join_cases d (x ++ e) hd hxesl hxene
  have h1 : String.mk (pre ++ (x ++ e).toList) =
      String.mk (pre ++ (x.toList ++ e.toList)) := rfl
  rw [hj, h1, splitext_concat pre x e hpre hx hxe he]

/-- Little-endian valuation of a digit list. -/
def ofDigits : List Nat → Nat
  | [] => 0
  | d :: rest => d + 10 * ofDigits rest

theorem ofDigits_decDigits : ∀ (fuel n : Nat), n ≤ fuel → ofDigits (decDigits fuel n) = n := by
  intro fuel
  induction fuel with
  | zero =>
      intro n h
      have h0 : n = 0 := Nat.le_zero.mp h
      subst h0
      rfl
  | succ fuel ih =>
      intro n h
      by_cases h0 : n = 0
      · subst h0
        simp [decDigits, ofDigits]
      · have hlt : n / 10 < n := Nat.div_lt_self (Nat.pos_of_ne_zero h0) (by omega)
        have hle : n / 10 ≤ fuel := by omega
        simp only [decDigits, h0, if_false, ofDigits, ih _ hle]
        omega

theorem decDigits_lt_ten : ∀ (fuel n : Nat), ∀ d ∈ decDigits fuel n, d < 10 := by
  intro fuel
  induction fuel with
  | zero => intro n d hd; simp [decDigits] at hd
  | succ fuel ih =>
      intro n d hd
      by_cases h0 : n = 0
      · simp [decDigits, h0] at hd
      · simp only [decDigits, h0, if_false] at hd
        rcases List.mem_cons.mp hd with h | h
        · subst h
          exact Nat.mod_lt _ (by omega)
        · exact ih _ d h

theorem decDigits_ne_nil (n : Nat) (h : n ≠ 0) : decDigits n n ≠ [] := by
  cases n with
  | zero => exact absurd rfl h
  | succ m => simp [decDigits]

theorem digitChar_inj (d₁ d₂ : Nat) (h₁ : d₁ < 10) (h₂ : d₂ < 10)
    (h : digitChar d₁ = digitChar d₂) : d₁ = d₂ := by
  interval_cases d₁ <;> interval_cases d₂ <;> revert h <;> decide

theorem map_digitChar_inj : ∀ (l₁ l₂ : List Nat), (∀ d ∈ l₁, d < 10) → (∀ d ∈ l₂, d < 10) →
    l₁.map digitChar = l₂.map digitChar → l₁ = l₂ := by
  intro l₁
  induction l₁ with
  | nil =>
      intro l₂ _ _ h
      exact (List.map_eq_nil_iff.mp h.symm).symm
  | cons d ds ih =>
      intro l₂ h₁ h₂ h
      cases l₂ with
      | nil => simp at h
      | cons g gs =>
          simp only [List.map_cons, List.cons.injEq] at h
          have hd := digitChar_inj d g (h₁ d (List.mem_cons_self _ _))
            (h₂ g (List.mem_cons_self _ _)) h.1
          rw [hd, ih gs (fun a ha => h₁ a (List.mem_cons_of_mem _ ha))
            (fun a ha => h₂ a (List.mem_cons_of_mem _ ha)) h.2]

theorem natToDecimal_digits (n : Nat) (h : n ≠ 0) :
    (natToDecimal n).toList = (decDigits n n).reverse.map digitChar := by
  simp [natToDecimal, h]

theorem natToDecimal_val (n : Nat) :
    ∃ L, (natToDecimal n).toList = L.reverse.map digitChar ∧
      (∀ d ∈ L, d < 10) ∧ ofDigits L = n := by
  by_cases h0 : n = 0
  · subst h0
    exact ⟨[0], by decide, by simp, rfl⟩
  · exact ⟨decDigits n n, natToDecimal_digits n h0,
      fun d hd => decDigits_lt_ten n n d hd, ofDigits_decDigits n n (Nat.le_refl n)⟩

theorem natToDecimal_inj (m n : Nat) (h : natToDecimal m = natToDecimal n) : m = n := by
  obtain ⟨L₁, h1, b1, v1⟩ := natToDecimal_val m
  obtain ⟨L₂, h2, b2, v2⟩ := natToDecimal_val n
  have htl := congrArg String.toList h
  rw [h1, h2] at htl
  have hrev := map_digitChar_inj L₁.reverse L₂.reverse
    (fun d hd => b1 d (List.mem_reverse.mp hd))
    (fun d hd => b2 d (List.mem_reverse.mp hd)) htl
  have hL : L₁ = L₂ := by
    have := congrArg List.reverse hrev
    simpa using this
  rw [← v1, ← v2, hL]

theorem natToDecimal_chars (k : Nat) : ∀ c ∈ (natToDecimal k).toList, c ≠ '.' ∧ c ≠ '/' := by
  obtain ⟨L, h1, b1, _⟩ := natToDecimal_val k
  rw [h1]
  intro c hc
  rcases List.mem_map.mp hc with ⟨d, hd, hdc⟩
  have hdlt : d < 10 := b1 d (List.mem_reverse.mp hd)
  subst hdc
  interval_cases d <;> exact ⟨by decide, by decide⟩

theorem natToDecimal_ne_empty (k : Nat) : natToDecimal k ≠ "" := by
  by_cases h0 : k = 0
  · rw [h0]
    decide
  · intro hc
    have htl := congrArg String.toList hc
    rw [natToDecimal_digits k h0] at htl
    have hnil : (decDigits k k).reverse = [] := List.map_eq_nil_iff.mp htl
    exact decDigits_ne_nil k h0 (by simpa using hnil)

theorem extShape_e_slashfree (x e : String) (he : extShape x e) : '/' ∉ e.toList := by
  rcases he with ⟨he1, _⟩ | ⟨t, het, _, hts, _⟩
  · rw [he1]
    intro h
    exact absurd h (List.not_mem_nil _)
  · rw [het]
    intro hmem
    rcases List.mem_cons.mp hmem with h | h
    · exact absurd h.symm (by decide)
    · exact hts h

theorem stem_toList (b : String) (k : Nat) :
    (b ++ "_" ++ natToDecimal k).toList = (b.toList ++ ['_']) ++ (natToDecimal k).toList := rfl

theorem stem_slashfree (b : String) (hb : '/' ∉ b.toList) (k : Nat) :
    '/' ∉ (b ++ "_" ++ natToDecimal k).toList := by
  rw [stem_toList]
  intro hmem
  rcases List.mem_append.mp hmem with h | h
  · rcases List.mem_append.mp h with h' | h'
    · exact hb h'
    · exact absurd (List.mem_singleton.mp h').symm (by decide)
  · exact ((natToDecimal_chars k '/' h).2) rfl

theorem stem_ne_empty (b : String) (k : Nat) : b ++ "_" ++ natToDecimal k ≠ "" := by
  intro h
  have htl := congrArg String.toList h
  rw [stem_toList] at htl
  have : (b.toList ++ ['_'] : List Char) = [] := (List.append_eq_nil.mp htl).1
  exact absurd (List.append_eq_nil.mp this).2 (by decide)

theorem extShape_stem (b e : String) (he : extShape b e) (k : Nat) :
    extShape (b ++ "_" ++ natToDecimal k) e := by
  rcases he with ⟨he1, he2⟩ | ⟨t, het, htd, hts, c, hc, hcd⟩
  · refine Or.inl ⟨he1, ?_⟩
    rw [stem_toList]
    intro hmem
    rcases List.mem_append.mp hmem with h | h
    · rcases List.mem_append.mp h with h' | h'
      · exact he2 h'
      · exact absurd (List.mem_singleton.mp h').symm (by decide)
    · exact ((natToDecimal_chars k '.' h).1) rfl
  · refine Or.inr ⟨t, het, htd, hts, '_', ?_, by decide⟩
    rw [stem_toList]
    exact List.mem_append_left _ (List.mem_append_right _ (List.mem_singleton.mpr rfl))

theorem candName_slashfree (b e : String) (hb : '/' ∉ b.toList) (he : extShape b e) (k : Nat) :
    '/' ∉ (candName b e k).toList := by
  have h1 : (candName b e k).toList =
      (b ++ "_" ++ natToDecimal k).toList ++ e.toList := rfl
  rw [h1]
  intro hmem
  rcases List.mem_append.mp hmem with h | h
  · exact stem_slashfree b hb k h
  · exact extShape_e_slashfree b e he h

theorem candName_ne_empty (b e : String) (k : Nat) : candName b e k ≠ "" := by
  intro h
  have htl : (b ++ "_" ++ natToDecimal k).toList ++ e.toList = ([] : List Char) :=
    congrArg String.toList h
  exact toList_ne_nil _ (stem_ne_empty b k) (List.append_eq_nil.mp htl).1

theorem candName_inj (b e : String) (j k : Nat) (h : candName b e j = candName b e k) :
    j = k := by
  have htl : ((b.toList ++ ['_']) ++ (natToDecimal j).toList) ++ e.toList =
      ((b.toList ++ ['_']) ++ (natToDecimal k).toList) ++ e.toList :=
    congrArg String.toList h
  have h2 := List.append_cancel_right htl
  have h3 := List.append_cancel_left h2
  have h4 : natToDecimal j = natToDecimal k := congrArg String.mk h3
  exact natToDecimal_inj j k h4

theorem cand_inj (d b e : String) (hd : dirnameNormal d) (hb : '/' ∉ b.toList)
    (he : extShape b e) (j k : Nat) (h : cand d b e j = cand d b e k) : j = k := by
  have h1 := congrArg os_path_basename h
  simp only [cand] at h1
  rw [os_path_basename_join d _ hd (candName_slashfree b e hb he j) (candName_ne_empty b e j),
    os_path_basename_join d _ hd (candName_slashfree b e hb he k) (candName_ne_empty b e k)]
    at h1
  exact candName_inj b e j k h1

theorem base_slashfree (b e : String) (hb : '/' ∉ b.toList) (he : extShape b e) :
    '/' ∉ (b ++ e).toList := by
  have h1 : (b ++ e).toList = b.toList ++ e.toList := rfl
  rw [h1]
  intro hmem
  rcases List.mem_append.mp hmem with h | h
  · exact hb h
  · exact extShape_e_slashfree b e he h

theorem base_ne_empty (b e : String) (hbe : b ≠ "") : b ++ e ≠ "" := by
  intro h
  have htl : b.toList ++ e.toList = ([] : List Char) := congrArg String.toList h
  exact toList_ne_nil b hbe (List.append_eq_nil.mp htl).1

theorem p_ne_cand (d b e : String) (hd : dirnameNormal d) (hb : '/' ∉ b.toList) (hbe : b ≠ "")
    (he : extShape b e) (k : Nat) : os_path_join d (b ++ e) ≠ cand d b e k := by
  intro h
  have h1 := congrArg os_path_basename h
  simp only [cand] at h1
  rw [os_path_basename_join d _ hd (base_slashfree b e hb he) (base_ne_empty b e hbe),
    os_path_basename_join d _ hd (candName_slashfree b e hb he k) (candName_ne_empty b e k)]
    at h1
  have htl := congrArg String.toList h1
  have h2 : b.toList ++ e.toList =
      ((b.toList ++ ['_']) ++ (natToDecimal k).toList) ++ e.toList := htl
  have hlen := congrArg List.length h2
  simp only [List.length_append, List.length_singleton] at hlen
  omega

theorem safeLoop_step (d b e : String) (hd : dirnameNormal d) (hb : '/' ∉ b.toList)
    (hbe : b ≠ "") (he : extShape b e) (k s : Nat) :
    os_path_join (os_path_dirname (cand d b e k))
      (b ++ "_" ++ natToDecimal s ++ (os_path_splitext (cand d b e k)).2) =
      cand d b e s := by
  have hdir : os_path_dirname (cand d b e k) = d :=
    os_path_dirname_join d (candName b e k) hd (candName_slashfree b e hb he k)
      (candName_ne_empty b e k)
  have hext : (os_path_splitext (cand d b e k)).2 = e :=
    splitext_join_ext d (b ++ "_" ++ natToDecimal k) e hd (stem_slashfree b hb k)
      (stem_ne_empty b k) (extShape_stem b e he k)
  rw [hdir, hext]
  rfl

theorem safeLoop_free (existing : List String) (d b e : String) (hd : dirnameNormal d)
    (hb : '/' ∉ b.toList) (hbe : b ≠ "") (he : extShape b e) :
    ∀ (fuel k : Nat),
      (∃ j, k ≤ j ∧ j < k + fuel ∧ cand d b e j ∉ existing) →
      safeLoop existing b fuel (cand d b e k) (k + 1) ∉ existing := by
  intro fuel
  induction fuel with
  | zero =>
      intro k hex
      obtain ⟨j, h1, h2, _⟩ := hex
      omega
  | succ fuel ih =>
      intro k hex
      by_cases hm : cand d b e k ∈ existing
      · rw [safeLoop, if_pos hm, safeLoop_step d b e hd hb hbe he k (k + 1)]
        apply ih (k + 1)
        obtain ⟨j, h1, h2, h3⟩ := hex
        have hjk : j ≠ k := fun hjk => h3 (hjk ▸ hm)
        exact ⟨j, by omega, by omega, h3⟩
      · rw [safeLoop, if_neg hm]
        exact hm

theorem exists_free_candidate (existing : List String) (d b e : String) (hd : dirnameNormal d)
    (hb : '/' ∉ b.toList) (hbe : b ≠ "") (he : extShape b e)
    (hp : os_path_join d (b ++ e) ∈ existing) :
    ∃ j, 2 ≤ j ∧ j < 2 + existing.length ∧ cand d b e j ∉ existing := by
  by_contra hcon
  push_neg at hcon
  have hsub : ∀ x ∈ os_path_join d (b ++ e) ::
      (List.range' 2 existing.length).map (cand d b e), x ∈ existing := by
    intro x hx
    rcases List.mem_cons.mp hx with h | h
    · rw [h]
      exact hp
    · rcases List.mem_map.mp h with ⟨j, hj, hjx⟩
      obtain ⟨hj1, hj2⟩ := List.mem_range'_1.mp hj
      rw [← hjx]
      exact hcon j hj1 hj2
  have hnodup : (os_path_join d (b ++ e) ::
      (List.range' 2 existing.length).map (cand d b e)).Nodup := by
    rw [List.nodup_cons]
    constructor
    · intro hmem
      rcases List.mem_map.mp hmem with ⟨j, _, hjx⟩
      exact p_ne_cand d b e hd hb hbe he j hjx.symm
    · exact List.Nodup.map_on
        (fun x _ y _ hxy => cand_inj d b e hd hb he x y hxy)
        (List.nodup_range' 2 existing.length 1 Nat.one_pos)
  have h1 : (os_path_join d (b ++ e) ::
      (List.range' 2 existing.length).map (cand d b e)).toFinset.card =
      existing.length + 1 := by
    rw [List.toFinset_card_of_nodup hnodup]
    simp [List.length_range']
  have h2 : (os_path_join d (b ++ e) ::
      (List.range' 2 existing.length).map (cand d b e)).toFinset ⊆ existing.toFinset := by
    intro x hx
    rw [List.mem_toFinset] at hx ⊢
    exact hsub x hx
  have h3 := Finset.card_le_card h2
  have h4 := existing.toFinset_card_le
  omega

/-- C9: `get_safe_file_path` is deterministic given the filesystem existence
state (it is a pure function of the existing-file list): if no file exists at
the requested path the path is returned unchanged; otherwise suffixes `_2`,
`_3`, … are appended before the extension until a path with no existing file
is found — with `out.zip` existing the result is `out_2.zip`, with both
`out.zip` and `out_2.zip` existing it is `out_3.zip`, and in general (for
well-formed directory/stem/extension shapes) the returned path is not an
existing file. -/
theorem c9_safe_file_path :
    (∀ (existing : List String) (file_path : String), file_path ∉ existing →
      get_safe_file_path existing file_path = file_path) ∧
    get_safe_file_path ["out.zip"] "out.zip" = "out_2.zip" ∧
    get_safe_file_path ["out.zip", "out_2.zip"] "out.zip" = "out_3.zip" ∧
    (∀ (existing : List String) (d b e : String),
      dirnameNormal d → '/' ∉ b.toList → b ≠ "" → extShape b e →
      get_safe_file_path existing (os_path_join d (b ++ e)) ∉ existing) := by
  refine ⟨?_, by decide, by decide, ?_⟩
  · intro existing fp hfp
    unfold get_safe_file_path
    rw [safeLoop, if_neg hfp]
  · intro existing d b e hd hb hbe he
    by_cases hmem : os_path_join d (b ++ e) ∈ existing
    · have hxesl : '/' ∉ (b ++ e).toList := base_slashfree b e hb he
      have hxene : b ++ e ≠ "" := base_ne_empty b e hbe
      have hnoext : (os_path_splitext (os_path_basename (os_path_join d (b ++ e)))).1 = b := by
        rw [os_path_basename_join d (b ++ e) hd hxesl hxene, splitext_name b e hb hbe he]
      have hext : (os_path_splitext (os_path_join d (b ++ e))).2 = e :=
        splitext_join_ext d b e hd hb hbe he
      have hdir : os_path_dirname (os_path_join d (b ++ e)) = d :=
        os_path_dirname_join d (b ++ e) hd hxesl hxene
      unfold get_safe_file_path
      rw [hnoext, safeLoop, if_pos hmem, hdir, hext]
      have h2 : os_path_join d (b ++ "_" ++ natToDecimal 2 ++ e) = cand d b e 2 := rfl
      rw [h2]
      exact safeLoop_free existing d b e hd hb hbe he existing.length 2
        (exists_free_candidate existing d b e hd hb hbe he hmem)
    · unfold get_safe_file_path
      rw [safeLoop, if_neg hmem]
      exact hmem

/-- C9 witness: the general no-collision part applied to `out.zip` with
`out.zip` existing, together with the shape facts it needs. -/
theorem c9_witness :
    dirnameNormal "" ∧ ('/' ∉ ("out" : String).toList) ∧ ("out" : String) ≠ "" ∧
      extShape "out" ".zip" ∧
      get_safe_file_path ["out.zip"] (os_path_join "" ("out" ++ ".zip")) ∉
        (["out.zip"] : List String) :=
  ⟨Or.inl rfl, by decide, by decide,
    Or.inr ⟨['z', 'i', 'p'], rfl, by decide, by decide, 'o', by decide, by decide⟩,
    c9_safe_file_path.2.2.2 ["out.zip"] "" "out" ".zip" (Or.inl rfl) (by decide) (by decide)
      (Or.inr ⟨['z', 'i', 'p'], rfl, by decide, by decide, 'o', by decide, by decide⟩)⟩

end Verizip
